import Mathlib

/-!
Shallow embedding of the `symbolic-expr` crate (src/src/lib.rs) and proofs
about its specification claims.

Modelling conventions, fixed once for the whole development:

* Variable names (`String` in the source) are modelled by `Nat`.  The code
  uses names only through equality tests and the total order `Ord::cmp`
  (for sorting factors and terms), so any infinite linearly ordered type
  with decidable comparisons is a faithful alphabet; `Nat` keeps every
  comparison kernel-computable.  `cmp` below is the Mathlib comparator of
  the linear order, mirroring `Ord::cmp` of the source.
* `Ratio<isize>` (num_rational, always kept in reduced form, compared by
  value) is modelled by `Rat`.  Field operations on `Rat` are total, with
  division by zero returning 0, whereas `Ratio` division by a zero value
  aborts; the claims proved below either carry hypotheses that keep all
  divisors away from zero or are explicitly about the behaviour at such
  inputs, which is discussed at the relevant theorems.
* A Rust function that can abort (assertion failure, unwrap, out of bounds
  index) is modelled in the `Except String` monad, the error message being
  the abort message.  A Rust function returning `Option<T>` that can also
  abort is modelled as `Except String (Option T)`: `.ok none` is the Rust
  `None`, `.error` the abort.
* `Vec::sort`/`sort_by` are stable sorts; they are modelled by Mathlib
  `List.insertionSort`, which inserts an element before the first later
  element it is `≤` for, hence is stable as well.  A stable sort of a list
  with respect to a total preorder is unique, so the two agree.
* `VecDeque<Operand>` is modelled by an explicit list type `OperandList`
  (mutually inductive with `Expr`), `push_front`/`push_back`/`extend`
  becoming cons/append.
* `HashMap<&str, usize>` bindings are modelled as association lists with
  first-match lookup (the maps built by callers have distinct keys, and
  the code only reads through `get`).
-/

namespace SE

/-- Alphabet of variable names; stands in for `String` of the source (only
equality and the total order on names are used by the code). -/
abbrev VarName : Type := Nat

/-! ## Factor and CanonicalTerm (source lines 321-331) -/

/-- Source `struct Factor { base, exponent }`. -/
structure Factor where
  base : VarName
  exponent : Int
deriving DecidableEq, Repr

/-- Source `impl Ord for Factor`: compare by base, then by exponent
(`Ordering.then` is exactly the `match` on the first comparison of the
source, continuing with the second on `Equal`). -/
def Factor.fcmp (f g : Factor) : Ordering :=
  (cmp f.base g.base).then (cmp f.exponent g.exponent)

/-- Lexicographic comparison of factor lists: source `Vec<&Factor>::cmp`
(shorter list first when one is a prefix of the other). -/
def facListCmp : List Factor → List Factor → Ordering
  | [], [] => Ordering.eq
  | [], _ :: _ => Ordering.lt
  | _ :: _, [] => Ordering.gt
  | f :: fs, g :: gs => (Factor.fcmp f g).then (facListCmp fs gs)

/-- Source `struct CanonicalTerm { coef, factors }`. -/
structure CanonicalTerm where
  coef : Rat
  factors : List Factor
deriving DecidableEq, Repr

namespace CanonicalTerm

/-- Source `CanonicalTerm::new`. -/
def new (coef : Int) : CanonicalTerm :=
  { coef := (coef : Rat), factors := [] }

/-- Source `CanonicalTerm::neg` (negates the coefficient in place). -/
def negT (t : CanonicalTerm) : CanonicalTerm :=
  { t with coef := -t.coef }

/-- Source `CanonicalTerm::with_var`. -/
def with_var (coef : Int) (v : VarName) : CanonicalTerm :=
  { coef := (coef : Rat), factors := [{ base := v, exponent := 1 }] }

/-- Source `CanonicalTerm::is_constant`. -/
def is_constant (t : CanonicalTerm) : Bool :=
  t.factors.isEmpty || t.factors.all fun f => f.exponent == 0

end CanonicalTerm

/-! ## Factor merging used by multiply and divide (source lines 357-436) -/

/-- Comparison used by `factors.sort_by(|a, b| a.base.cmp(&b.base))`:
order by base only (ties keep input order, the sort being stable). -/
abbrev facBaseLe (f g : Factor) : Prop := cmp f.base g.base ≠ Ordering.gt

instance : DecidableRel facBaseLe := fun f g =>
  inferInstanceAs (Decidable (cmp f.base g.base ≠ Ordering.gt))

/-- Stable sort of a factor list by base name, modelling the
`sort_by` call inside `multiply` and `divide`. -/
def sortByBase (fs : List Factor) : List Factor := List.insertionSort facBaseLe fs

/-- The accumulator loop of `multiply`/`divide` that walks the sorted
factor list, adds exponents of equal-base neighbours and drops factors
whose accumulated exponent is 0. -/
def mergeLoop : Option Factor → List Factor → List Factor
  | none, [] => []
  | some prev, [] => if prev.exponent ≠ 0 then [prev] else []
  | none, f :: fs => mergeLoop (some f) fs
  | some prev, f :: fs =>
    if prev.base = f.base then
      mergeLoop (some { prev with exponent := prev.exponent + f.exponent }) fs
    else
      (if prev.exponent ≠ 0 then [prev] else []) ++ mergeLoop (some f) fs

/-- Sort by base then merge equal-base factors: the common tail of
`multiply` and `divide`. -/
def mergeFactors (fs : List Factor) : List Factor := mergeLoop none (sortByBase fs)

namespace CanonicalTerm

/-- Source `CanonicalTerm::multiply`. -/
def multiply (a b : CanonicalTerm) : CanonicalTerm :=
  { coef := a.coef * b.coef, factors := mergeFactors (a.factors ++ b.factors) }

/-- Source `CanonicalTerm::divide`: like multiply with the exponents of
the second operand negated, and the coefficients divided.  (In the source
a division by a term with coefficient 0 aborts inside `Ratio`; here the
quotient is the total `Rat` division.) -/
def divide (a b : CanonicalTerm) : CanonicalTerm :=
  { coef := a.coef / b.coef,
    factors :=
      mergeFactors (a.factors ++ b.factors.map fun f => { f with exponent := -f.exponent }) }

end CanonicalTerm

/-! ## combine_like_terms (source lines 439-515) -/

/-- Removal of zero-exponent factors: first step of `combine_like_terms`. -/
def stripZero (t : CanonicalTerm) : CanonicalTerm :=
  { t with factors := t.factors.filter fun f => f.exponent ≠ 0 }

/-- Full factor order used by `a_vars.sort()` inside the term comparator. -/
abbrev facLe (f g : Factor) : Prop := Factor.fcmp f g ≠ Ordering.gt

instance : DecidableRel facLe := fun f g =>
  inferInstanceAs (Decidable (Factor.fcmp f g ≠ Ordering.gt))

/-- Stable sort of factors by the full factor order (`a_vars.sort()`). -/
def sortFac (fs : List Factor) : List Factor := List.insertionSort facLe fs

/-- The term comparator passed to `terms.sort_by` in `combine_like_terms`:
constants first, otherwise compare the sorted factor lists. -/
def termCmp (a b : CanonicalTerm) : Ordering :=
  if a.is_constant then
    if b.is_constant then facListCmp (sortFac a.factors) (sortFac b.factors)
    else Ordering.lt
  else
    if b.is_constant then Ordering.gt
    else facListCmp (sortFac a.factors) (sortFac b.factors)

/-- Order relation induced by `termCmp`, used to run the stable sort. -/
abbrev termLe (a b : CanonicalTerm) : Prop := termCmp a b ≠ Ordering.gt

instance : DecidableRel termLe := fun a b =>
  inferInstanceAs (Decidable (termCmp a b ≠ Ordering.gt))

/-- Condition under which the grouping loop of `combine_like_terms` merges
the incoming term into the current accumulator. -/
def groupable (prev t : CanonicalTerm) : Prop :=
  prev.factors = t.factors ∨ (prev.is_constant ∧ t.is_constant)

instance : ∀ p t, Decidable (groupable p t) := fun p t => by
  unfold groupable; infer_instance

/-- The grouping loop of `combine_like_terms`: walk the sorted terms, sum
coefficients of adjacent groupable terms, and emit each finished group
unless its coefficient is 0. -/
def combineGroups : Option CanonicalTerm → List CanonicalTerm → List CanonicalTerm
  | none, [] => []
  | some prev, [] => if prev.coef ≠ 0 then [prev] else []
  | none, t :: ts => combineGroups (some t) ts
  | some prev, t :: ts =>
    if groupable prev t then
      combineGroups (some { prev with coef := prev.coef + t.coef }) ts
    else
      (if prev.coef ≠ 0 then [prev] else []) ++ combineGroups (some t) ts

namespace CanonicalTerm

/-- Source `CanonicalTerm::combine_like_terms`: strip zero-exponent
factors, stable-sort by the term comparator, then group. -/
def combine_like_terms (terms : List CanonicalTerm) : List CanonicalTerm :=
  combineGroups none (List.insertionSort termLe (terms.map stripZero))

/-- Source `CanonicalTerm::sum_terms`. -/
def sum_terms (terms other : List CanonicalTerm) : List CanonicalTerm :=
  combine_like_terms (terms ++ other)

/-- Source `CanonicalTerm::multiply_terms` (Cartesian product of the two
term lists, then combine). -/
def multiply_terms (terms other : List CanonicalTerm) : List CanonicalTerm :=
  combine_like_terms (terms.flatMap fun t1 => other.map fun t2 => t1.multiply t2)

/-- Source `CanonicalTerm::terms_divide_by_term`. -/
def terms_divide_by_term (terms : List CanonicalTerm) (dividend : CanonicalTerm) :
    List CanonicalTerm :=
  combine_like_terms (terms.map fun t => t.divide dividend)

end CanonicalTerm

/-! ## RationalExpression (source lines 549-602) -/

/-- Source `struct RationalExpression { numer, denom }`. -/
structure RationalExpression where
  numer : List CanonicalTerm
  denom : List CanonicalTerm
deriving DecidableEq, Repr

namespace RationalExpression

/-- Source `RationalExpression::new_zero`. -/
def new_zero : RationalExpression :=
  { numer := [CanonicalTerm.new 0], denom := [CanonicalTerm.new 1] }

/-- Source `RationalExpression::new_one`. -/
def new_one : RationalExpression :=
  { numer := [CanonicalTerm.new 1], denom := [CanonicalTerm.new 1] }

/-- Source `RationalExpression::new`; the assertion that the denominator
is non-empty becomes the error case. -/
def new (numer denom : List CanonicalTerm) : Except String RationalExpression :=
  if denom.isEmpty then Except.error "Denominator cannot be empty in RationalExpression"
  else Except.ok { numer := numer, denom := denom }

/-- Source `RationalExpression::neg` (negate every numerator term). -/
def negR (r : RationalExpression) : RationalExpression :=
  { r with numer := r.numer.map CanonicalTerm.negT }

/-- Source `RationalExpression::invert` (swap numerator and denominator;
no check is performed). -/
def invert (r : RationalExpression) : RationalExpression :=
  { numer := r.denom, denom := r.numer }

/-- Source `RationalExpression::simplify`.  With a single-term denominator
each numerator term is divided by it; otherwise both sides are only
re-combined (which can abort through `new` when the recombined
denominator becomes empty). -/
def simplify (r : RationalExpression) : Except String RationalExpression :=
  match r.denom with
  | [d] =>
    let sn := CanonicalTerm.combine_like_terms (r.numer.map fun t => t.divide d)
    if sn.isEmpty then Except.ok new_zero
    else new sn [CanonicalTerm.new 1]
  | _ =>
    new (CanonicalTerm.combine_like_terms r.numer) (CanonicalTerm.combine_like_terms r.denom)

end RationalExpression

end SE

namespace SE

/-! ## Expr, Operand and the operand lists (source lines 23-64, 191-225) -/

/-- Source `enum Type { Positive, Negative }` (the sign tag of an operand);
renamed `Sign` here because `Type` is a Lean keyword. -/
inductive Sign where
  | positive : Sign
  | negative : Sign
deriving DecidableEq, Repr

/-- Source `Type::rev`. -/
def Sign.rev : Sign → Sign
  | Sign.positive => Sign.negative
  | Sign.negative => Sign.positive

mutual
/-- Source `enum Expr`; `Variable` is embedded as `var` (`variable` is a
Lean keyword). -/
inductive Expr where
  | constant : Nat → Expr
  | var : VarName → Expr
  | sum : OperandList → Expr
  | product : OperandList → Expr
  | rational : RationalExpression → Expr

/-- Explicit list of operands (models `VecDeque<Operand>`). -/
inductive OperandList where
  | nil : OperandList
  | cons : Operand → OperandList → OperandList

/-- Source `struct Operand { ty, expr }`. -/
inductive Operand where
  | mk : Sign → Expr → Operand
end

deriving instance DecidableEq for Expr
deriving instance DecidableEq for OperandList
deriving instance DecidableEq for Operand

/-- Sign tag of an operand. -/
def Operand.ty : Operand → Sign
  | Operand.mk t _ => t

/-- Expression of an operand. -/
def Operand.expr : Operand → Expr
  | Operand.mk _ e => e

/-- Source `Neg for Operand` and `Operand::rev_assign`: flip the sign. -/
def Operand.negO : Operand → Operand
  | Operand.mk t e => Operand.mk t.rev e

/-- Concatenation of operand lists (models `VecDeque::extend` /
building `[l, r].into()`). -/
def OperandList.append : OperandList → OperandList → OperandList
  | OperandList.nil, l => l
  | OperandList.cons o t, l => OperandList.cons o (t.append l)

/-- Sign flip of every operand (models `map(Neg::neg)` and the
`iter_mut().for_each(Operand::rev_assign)` loop). -/
def OperandList.negAll : OperandList → OperandList
  | OperandList.nil => OperandList.nil
  | OperandList.cons o t => OperandList.cons o.negO t.negAll

/-- Source `Expr::positive`. -/
def Expr.positive (e : Expr) : Operand := Operand.mk Sign.positive e

/-- Source `Expr::negative`. -/
def Expr.negative (e : Expr) : Operand := Operand.mk Sign.negative e

/-! ## The arithmetic operators (source macro `impl_op`, lines 245-319).

Each operator flattens an operand list of the same kind on either side;
`add`/`mul` insert the other side positively, `sub`/`div` negatively
(flipping the signs of a same-kind right operand). -/

/-- Source `Add for Expr` (the `positive: Sum` instantiation of `impl_op`). -/
def Expr.add (l r : Expr) : Expr :=
  match l with
  | Expr.sum lops =>
    match r with
    | Expr.sum rops => Expr.sum (lops.append rops)
    | r => Expr.sum (lops.append (OperandList.cons r.positive OperandList.nil))
  | l =>
    match r with
    | Expr.sum rops => Expr.sum (OperandList.cons l.positive rops)
    | r => Expr.sum (OperandList.cons l.positive (OperandList.cons r.positive OperandList.nil))

/-- Source `Sub for Expr` (the `negative: Sum` instantiation of `impl_op`). -/
def Expr.sub (l r : Expr) : Expr :=
  match l with
  | Expr.sum lops =>
    match r with
    | Expr.sum rops => Expr.sum (lops.append rops.negAll)
    | r => Expr.sum (lops.append (OperandList.cons r.negative OperandList.nil))
  | l =>
    match r with
    | Expr.sum rops => Expr.sum (OperandList.cons l.positive rops.negAll)
    | r => Expr.sum (OperandList.cons l.positive (OperandList.cons r.negative OperandList.nil))

/-- Source `Mul for Expr` (the `positive: Product` instantiation). -/
def Expr.mul (l r : Expr) : Expr :=
  match l with
  | Expr.product lops =>
    match r with
    | Expr.product rops => Expr.product (lops.append rops)
    | r => Expr.product (lops.append (OperandList.cons r.positive OperandList.nil))
  | l =>
    match r with
    | Expr.product rops => Expr.product (OperandList.cons l.positive rops)
    | r =>
      Expr.product (OperandList.cons l.positive (OperandList.cons r.positive OperandList.nil))

/-- Source `Div for Expr` (the `negative: Product` instantiation). -/
def Expr.div (l r : Expr) : Expr :=
  match l with
  | Expr.product lops =>
    match r with
    | Expr.product rops => Expr.product (lops.append rops.negAll)
    | r => Expr.product (lops.append (OperandList.cons r.negative OperandList.nil))
  | l =>
    match r with
    | Expr.product rops => Expr.product (OperandList.cons l.positive rops.negAll)
    | r =>
      Expr.product (OperandList.cons l.positive (OperandList.cons r.negative OperandList.nil))

/-! ## Lowering to canonical rational form (source `from_dim`, lines 604-653) -/

/-- Sign handling of a `Sum` operand in `from_dim`: a negative operand
has its numerator negated before folding. -/
def applySign (ty : Sign) (r : RationalExpression) : RationalExpression :=
  match ty with
  | Sign.positive => r
  | Sign.negative => r.negR

/-- Sign handling of a `Product` operand in `from_dim`: a negative
operand is inverted before folding. -/
def applySignInv (ty : Sign) (r : RationalExpression) : RationalExpression :=
  match ty with
  | Sign.positive => r
  | Sign.negative => r.invert

mutual
/-- Source `RationalExpression::from_dim`.  The `Option` of the source is
the inner `Option`; aborts inside `RationalExpression::new` or the
out-of-bounds `rational.denom[0]` access surface as `Except.error`. -/
def RationalExpression.from_dim : Expr → Except String (Option RationalExpression)
  | Expr.constant v => Except.ok (some
      { numer := [CanonicalTerm.new (v : Int)], denom := [CanonicalTerm.new 1] })
  | Expr.var name => Except.ok (some
      { numer := [CanonicalTerm.with_var 1 name], denom := [CanonicalTerm.new 1] })
  | Expr.sum operands => RationalExpression.sumFold RationalExpression.new_zero operands
  | Expr.product operands => RationalExpression.prodFold RationalExpression.new_one operands
  | Expr.rational rational => Except.ok (some rational)

/-- The fold over the operands of a `Sum` inside `from_dim` (signed
cross-multiplication; every intermediate goes through
`RationalExpression::new`). -/
def RationalExpression.sumFold (acc : RationalExpression) :
    OperandList → Except String (Option RationalExpression)
  | OperandList.nil => Except.ok (some acc)
  | OperandList.cons (Operand.mk ty e) rest =>
    match RationalExpression.from_dim e with
    | Except.error msg => Except.error msg
    | Except.ok none => Except.ok none
    | Except.ok (some rat0) =>
      match RationalExpression.new
          (CanonicalTerm.sum_terms
            (CanonicalTerm.multiply_terms acc.numer (applySign ty rat0).denom)
            (CanonicalTerm.multiply_terms (applySign ty rat0).numer acc.denom))
          (CanonicalTerm.multiply_terms acc.denom (applySign ty rat0).denom) with
      | Except.error msg => Except.error msg
      | Except.ok next => RationalExpression.sumFold next rest

/-- The fold over the operands of a `Product` inside `from_dim`: invert
negative operands; cross-multiply when the operand denominator has more
than one term, otherwise divide the running numerator by the single
denominator term (`rational.denom[0]`, an aborting access when the
inverted denominator is empty). -/
def RationalExpression.prodFold (acc : RationalExpression) :
    OperandList → Except String (Option RationalExpression)
  | OperandList.nil => Except.ok (some acc)
  | OperandList.cons (Operand.mk ty e) rest =>
    match RationalExpression.from_dim e with
    | Except.error msg => Except.error msg
    | Except.ok none => Except.ok none
    | Except.ok (some rat0) =>
      if (applySignInv ty rat0).denom.length > 1 then
        match RationalExpression.new
            (CanonicalTerm.multiply_terms acc.numer (applySignInv ty rat0).numer)
            (CanonicalTerm.multiply_terms acc.denom (applySignInv ty rat0).denom) with
        | Except.error msg => Except.error msg
        | Except.ok next => RationalExpression.prodFold next rest
      else
        match (applySignInv ty rat0).denom with
        | [] => Except.error "index out of bounds"
        | d :: _ =>
          let numer2 :=
            CanonicalTerm.terms_divide_by_term
              (CanonicalTerm.multiply_terms acc.numer (applySignInv ty rat0).numer) d
          RationalExpression.prodFold { acc with numer := numer2 } rest
end

end SE

namespace SE

/-! ## Equivalence (source `Expr::equivalent`, lines 134-161, and
`PartialEq for Expr`, lines 180-189) -/

/-- Lowering step shared by `equivalent` and `partial_substitute` in the
source: an expression that is already the `Rational` variant is used
as is, anything else goes through `from_dim`. -/
def lowerOf (e : Expr) : Except String (Option RationalExpression) :=
  match e with
  | Expr.rational r => Except.ok (some r)
  | e2 => RationalExpression.from_dim e2

/-- The classification loop of `equivalent`: scan the numerator terms and
record whether a nonzero constant term, resp. a nonzero non-constant
term, was seen. -/
def classifyLoop : Bool → Bool → List CanonicalTerm → Bool × Bool
  | hnc, hnv, [] => (hnc, hnv)
  | hnc, hnv, term :: rest =>
    if term.is_constant then
      if term.coef ≠ 0 then classifyLoop true hnv rest else classifyLoop hnc hnv rest
    else
      if term.coef ≠ 0 then classifyLoop hnc true rest else classifyLoop hnc hnv rest

/-- The two flags `has_nonzero_constant` and `has_nonzero_variable_term`
after the classification loop of `equivalent`. -/
def classifyFlags (terms : List CanonicalTerm) : Bool × Bool :=
  classifyLoop false false terms

/-- Source `Expr::equivalent`: lower the difference and classify its
numerator.  The outer `Except` carries aborts; `.ok none` is the `None`
of the source (from the `?` on `from_dim` as well as from the
indeterminate classification). -/
def Expr.equivalent (a b : Expr) : Except String (Option Bool) :=
  match lowerOf (Expr.sub a b) with
  | Except.error msg => Except.error msg
  | Except.ok none => Except.ok none
  | Except.ok (some diffRational) =>
    if !(classifyFlags diffRational.numer).1 && !(classifyFlags diffRational.numer).2 then
      Except.ok (some true)
    else if (classifyFlags diffRational.numer).1 && !(classifyFlags diffRational.numer).2 then
      Except.ok (some false)
    else Except.ok none

/-- Source `PartialEq::eq`: `self.equivalent(other) == Some(true)`. -/
def Expr.eqOp (a b : Expr) : Except String Bool :=
  match Expr.equivalent a b with
  | Except.error msg => Except.error msg
  | Except.ok o => Except.ok (o == some true)

/-- Source `PartialEq::ne`: `self.equivalent(other) == Some(false)`. -/
def Expr.neOp (a b : Expr) : Except String Bool :=
  match Expr.equivalent a b with
  | Except.error msg => Except.error msg
  | Except.ok o => Except.ok (o == some false)

/-! ## Variable collection (source `Expr::variables` /
`Expr::append_variables`, lines 65-91).  The source accumulates names
into a `BTreeSet`; membership is all the claims use, so the collection is
modelled as a list of names in traversal order. -/

mutual
/-- Names of the variables occurring in an expression (models the set
built by `append_variables`; duplicates are irrelevant for membership). -/
def Expr.varNames : Expr → List VarName
  | Expr.constant _ => []
  | Expr.var name => [name]
  | Expr.sum operands => OperandList.varNames operands
  | Expr.product operands => OperandList.varNames operands
  | Expr.rational rational =>
    (rational.numer.flatMap fun term => term.factors.map Factor.base) ++
      (rational.denom.flatMap fun term => term.factors.map Factor.base)

/-- Variable names of every operand of a list, in order. -/
def OperandList.varNames : OperandList → List VarName
  | OperandList.nil => []
  | OperandList.cons (Operand.mk _ e) rest => Expr.varNames e ++ OperandList.varNames rest
end

/-! ## Bindings and substitution (source lines 93-125 and 655-690) -/

/-- Variable bindings: models `HashMap<&str, usize>` as an association
list read through first-match lookup. -/
abbrev Bindings : Type := List (VarName × Nat)

/-- Lookup in a bindings map (models `HashMap::get`). -/
def blookup (b : Bindings) (s : VarName) : Option Nat :=
  match b with
  | [] => none
  | (k, v) :: rest => if k = s then some v else blookup rest s

/-- Value of one canonical term under full substitution: the helper
`substitute_term` of `RationalExpression::substitute`.  A factor with
positive exponent multiplies the value in `exponent` times, a negative
exponent divides it in `-exponent` times (iterated multiplication and
division are written as powers). -/
def substTermVal (t : CanonicalTerm) (b : Bindings) : Option Rat :=
  t.factors.foldl
    (fun acc f =>
      match acc with
      | none => none
      | some r =>
        match blookup b f.base with
        | none => none
        | some v =>
          if (0 : Int) < f.exponent then some (r * (v : Rat) ^ f.exponent.toNat)
          else some (r / (v : Rat) ^ (-f.exponent).toNat))
    (some t.coef)

/-- Sum of the substituted values of a term list (the accumulation loops
of `RationalExpression::substitute`). -/
def sumSubstVals (terms : List CanonicalTerm) (b : Bindings) : Option Rat :=
  terms.foldl
    (fun acc t =>
      match acc, substTermVal t b with
      | some r, some v => some (r + v)
      | _, _ => none)
    (some 0)

/-- Source `RationalExpression::substitute`: evaluate numerator and
denominator sums and divide.  (When the denominator evaluates to zero the
source aborts inside `Ratio`; here the total `Rat` division is used, and
the claims about substitution never depend on that point.) -/
def RationalExpression.substitute (r : RationalExpression) (b : Bindings) : Option Rat :=
  match sumSubstVals r.numer b, sumSubstVals r.denom b with
  | some n, some d => some (n / d)
  | _, _ => none

mutual
/-- Source `Expr::substitute`.  Aborts (unknown variable, subtraction
underflow, inexact division, non-integral rational value) are `none`. -/
def Expr.substitute : Expr → Bindings → Option Nat
  | Expr.constant value, _ => some value
  | Expr.var name, b => blookup b name
  | Expr.sum operands, b => Expr.sumFoldSub 0 operands b
  | Expr.product operands, b => Expr.prodFoldSub 1 operands b
  | Expr.rational r0, b =>
    match RationalExpression.substitute r0 b with
    | none => none
    | some result => if result.den = 1 then some result.num.natAbs else none

/-- The fold of `Expr::substitute` over `Sum` operands: add positive
operands, subtract negative ones through `checked_sub` (underflow aborts). -/
def Expr.sumFoldSub (acc : Nat) : OperandList → Bindings → Option Nat
  | OperandList.nil, _ => some acc
  | OperandList.cons (Operand.mk ty e) rest, b =>
    match Expr.substitute e b with
    | none => none
    | some value =>
      match ty with
      | Sign.positive => Expr.sumFoldSub (acc + value) rest b
      | Sign.negative =>
        if value ≤ acc then Expr.sumFoldSub (acc - value) rest b else none

/-- The fold of `Expr::substitute` over `Product` operands: multiply by
positive operands; for a negative operand assert exact divisibility and
divide (division or remainder by zero aborts). -/
def Expr.prodFoldSub (acc : Nat) : OperandList → Bindings → Option Nat
  | OperandList.nil, _ => some acc
  | OperandList.cons (Operand.mk ty e) rest, b =>
    match Expr.substitute e b with
    | none => none
    | some value =>
      match ty with
      | Sign.positive => Expr.prodFoldSub (acc * value) rest b
      | Sign.negative =>
        if value ≠ 0 ∧ acc % value = 0 then Expr.prodFoldSub (acc / value) rest b
        else none
end

/-! ## Partial substitution (source lines 163-177 and 692-735) and the
lift back to `Expr` (source `From<RationalExpression> for Expr`,
lines 753-757) -/

/-- The helper `substitute_term` of `RationalExpression::partial_substitute`:
fold the value of every bound factor into the coefficient (positive
exponent multiplies, negative divides), then drop the substituted factors
(their exponent is set to 0 and zero-exponent factors are retained out).
The source helper returns `Some` unconditionally. -/
def substPartialTerm (t : CanonicalTerm) (b : Bindings) : Option CanonicalTerm :=
  some
    { coef :=
        t.factors.foldl
          (fun c f =>
            match blookup b f.base with
            | none => c
            | some v =>
              if (0 : Int) < f.exponent then c * (v : Rat) ^ f.exponent.toNat
              else c / (v : Rat) ^ (-f.exponent).toNat)
          t.coef,
      factors :=
        t.factors.filter fun f => (blookup b f.base).isNone && f.exponent ≠ 0 }

/-- Mapping `substPartialTerm` over a term list, propagating `None` (the
`?` in the loops of `partial_substitute`). -/
def substPartialTerms : List CanonicalTerm → Bindings → Option (List CanonicalTerm)
  | [], _ => some []
  | t :: ts, b =>
    match substPartialTerm t b, substPartialTerms ts b with
    | some t2, some l => some (t2 :: l)
    | _, _ => none

/-- Source `RationalExpression::partial_substitute`: substitute both term
lists, recombine, rebuild through `new` and simplify.  `new` and
`simplify` can abort. -/
def RationalExpression.substPartial (r : RationalExpression) (b : Bindings) :
    Except String (Option RationalExpression) :=
  match substPartialTerms r.numer b with
  | none => Except.ok none
  | some new_numer =>
    match substPartialTerms r.denom b with
    | none => Except.ok none
    | some new_denom =>
      match RationalExpression.new
          (CanonicalTerm.combine_like_terms new_numer)
          (CanonicalTerm.combine_like_terms new_denom) with
      | Except.error msg => Except.error msg
      | Except.ok built =>
        match built.simplify with
        | Except.error msg => Except.error msg
        | Except.ok s => Except.ok (some s)

/-- Source `From<RationalExpression> for Expr`: simplify, then wrap as the
`Rational` variant (simplify can abort). -/
def Expr.fromRational (r : RationalExpression) : Except String Expr :=
  match r.simplify with
  | Except.error msg => Except.error msg
  | Except.ok s => Except.ok (Expr.rational s)

/-- Source `Expr::partial_substitute`: lower to rational form, substitute
there, and lift the result back. -/
def Expr.substPartial (e : Expr) (b : Bindings) : Except String (Option Expr) :=
  match lowerOf e with
  | Except.error msg => Except.error msg
  | Except.ok none => Except.ok none
  | Except.ok (some r0) =>
    match RationalExpression.substPartial r0 b with
    | Except.error msg => Except.error msg
    | Except.ok none => Except.ok none
    | Except.ok (some substituted) =>
      match Expr.fromRational substituted with
      | Except.error msg => Except.error msg
      | Except.ok e2 => Except.ok (some e2)

end SE

namespace SE

/-! # Helper lemmas -/

/-- The subtraction operator always yields a `Sum` node. -/
theorem sub_is_sum (a b : Expr) : ∃ ops, Expr.sub a b = Expr.sum ops := by
  cases a <;> cases b <;> exact ⟨_, rfl⟩

/-- With a single-term denominator, `simplify` cannot abort. -/
theorem simplify_single_ok (r : RationalExpression) (d : CanonicalTerm)
    (h : r.denom = [d]) : ∃ s, r.simplify = Except.ok s := by
  unfold RationalExpression.simplify
  rw [h]
  by_cases he :
      (CanonicalTerm.combine_like_terms (r.numer.map fun t => t.divide d)).isEmpty
  · exact ⟨RationalExpression.new_zero, by simp [he]⟩
  · refine ⟨{ numer := CanonicalTerm.combine_like_terms (r.numer.map fun t => t.divide d),
              denom := [CanonicalTerm.new 1] }, ?_⟩
    simp [he, RationalExpression.new]

/-- A successful `RationalExpression.new` records exactly the two given
term lists, and the denominator list is non-empty. -/
theorem new_ok_iff (numer denom : List CanonicalTerm) (r : RationalExpression) :
    RationalExpression.new numer denom = Except.ok r ↔
      denom ≠ [] ∧ r = { numer := numer, denom := denom } := by
  unfold RationalExpression.new
  cases denom <;> simp [eq_comm]

/-- A successful `simplify` never returns an empty denominator. -/
theorem simplify_ok_denom (r s : RationalExpression)
    (h : r.simplify = Except.ok s) : s.denom ≠ [] := by
  unfold RationalExpression.simplify at h
  rcases hd : r.denom with _ | ⟨d, ds⟩
  · rw [hd] at h
    rcases (new_ok_iff _ _ _).1 h with ⟨hne, rfl⟩
    simpa using hne
  · cases ds with
    | nil =>
      rw [hd] at h
      by_cases he :
          (CanonicalTerm.combine_like_terms (r.numer.map fun t => t.divide d)).isEmpty
      · simp only [he, if_true] at h
        cases h
        simp [RationalExpression.new_zero]
      · simp only [he, Bool.false_eq_true, if_false] at h
        rcases (new_ok_iff _ _ _).1 h with ⟨-, rfl⟩
        simp
    | cons d2 ds2 =>
      rw [hd] at h
      rcases (new_ok_iff _ _ _).1 h with ⟨hne, rfl⟩
      simpa using hne

/-! # Claim C2: the equality operators are defined from `equivalent` -/

/-- Claim C2.  For every pair of expressions, `a == b` holds exactly when
`equivalent` returns `Some(true)`, `a != b` holds exactly when it returns
`Some(false)`, and when it returns `None` both operators return `false`.
(The operators abort exactly when `equivalent` aborts, in which case none
of the three equalities of results apply.) -/
theorem C2_eq_ne_from_equivalent (a b : Expr) :
    (Expr.eqOp a b = Except.ok true ↔ Expr.equivalent a b = Except.ok (some true)) ∧
    (Expr.neOp a b = Except.ok true ↔ Expr.equivalent a b = Except.ok (some false)) ∧
    (Expr.equivalent a b = Except.ok none →
      Expr.eqOp a b = Except.ok false ∧ Expr.neOp a b = Except.ok false) := by
  rcases h : Expr.equivalent a b with msg | o
  · simp [Expr.eqOp, Expr.neOp, h]
  · rcases o with _ | b0
    · simp [Expr.eqOp, Expr.neOp, h]
    · cases b0 <;> simp [Expr.eqOp, Expr.neOp, h]

/-- Witness for C2 at a concrete pair whose equivalence is indeterminate:
both operators return `false` on `a` versus `b`. -/
theorem C2_witness :
    Expr.eqOp (Expr.var 0) (Expr.var 1) = Except.ok false ∧
      Expr.neOp (Expr.var 0) (Expr.var 1) = Except.ok false :=
  (C2_eq_ne_from_equivalent (Expr.var 0) (Expr.var 1)).2.2 (by
    norm_num [Expr.equivalent, lowerOf, Expr.sub, RationalExpression.from_dim,
      RationalExpression.sumFold, RationalExpression.prodFold, RationalExpression.new,
      RationalExpression.new_zero, RationalExpression.new_one, RationalExpression.negR,
      CanonicalTerm.sum_terms, CanonicalTerm.multiply_terms, CanonicalTerm.multiply,
      CanonicalTerm.new, CanonicalTerm.with_var, CanonicalTerm.is_constant,
      CanonicalTerm.negT, CanonicalTerm.combine_like_terms, combineGroups, groupable,
      stripZero, termCmp, sortFac, facListCmp, Factor.fcmp, mergeFactors, mergeLoop,
      sortByBase, List.insertionSort, List.orderedInsert, classifyFlags, classifyLoop,
      Expr.positive, Expr.negative, OperandList.append, OperandList.negAll,
      Operand.negO, Sign.rev, cmp, cmpUsing])

/-! # Claim C4: round trip through `Expr::from` and `from_dim` -/

/-- Claim C4.  For a rational expression with a single-term denominator,
lifting through `Expr::from` (which simplifies and wraps as the
`Rational` variant) and re-lowering with `from_dim` gives back term lists
that agree with those of `r.simplify()` after combine-like-terms. -/
theorem C4_round_trip (r : RationalExpression) (d : CanonicalTerm)
    (hd : r.denom = [d]) :
    ∃ (t : Expr) (lowered simplified : RationalExpression),
      Expr.fromRational r = Except.ok t ∧
      RationalExpression.from_dim t = Except.ok (some lowered) ∧
      r.simplify = Except.ok simplified ∧
      CanonicalTerm.combine_like_terms lowered.numer =
        CanonicalTerm.combine_like_terms simplified.numer ∧
      CanonicalTerm.combine_like_terms lowered.denom =
        CanonicalTerm.combine_like_terms simplified.denom := by
  obtain ⟨s, hs⟩ := simplify_single_ok r d hd
  exact ⟨Expr.rational s, s, s, by simp [Expr.fromRational, hs], rfl, hs, rfl, rfl⟩

/-- Witness for C4 at the concrete rational expression `(2a + 3b)/6`. -/
theorem C4_witness :
    ({ numer := [CanonicalTerm.with_var 2 0, CanonicalTerm.with_var 3 1],
       denom := [CanonicalTerm.new 6] } : RationalExpression).denom =
        [CanonicalTerm.new 6] ∧
    ∃ (t : Expr) (lowered simplified : RationalExpression),
      Expr.fromRational
        { numer := [CanonicalTerm.with_var 2 0, CanonicalTerm.with_var 3 1],
          denom := [CanonicalTerm.new 6] } = Except.ok t ∧
      RationalExpression.from_dim t = Except.ok (some lowered) ∧
      RationalExpression.simplify
        { numer := [CanonicalTerm.with_var 2 0, CanonicalTerm.with_var 3 1],
          denom := [CanonicalTerm.new 6] } = Except.ok simplified ∧
      CanonicalTerm.combine_like_terms lowered.numer =
        CanonicalTerm.combine_like_terms simplified.numer ∧
      CanonicalTerm.combine_like_terms lowered.denom =
        CanonicalTerm.combine_like_terms simplified.denom :=
  ⟨rfl, C4_round_trip _ (CanonicalTerm.new 6) rfl⟩

end SE

namespace SE

/-! # Claim C10: the optional signatures have no reachable None path -/

mutual
/-- The Rust `None` path of `from_dim` is unreachable: lowering either
aborts or produces a rational expression. -/
theorem from_dim_no_none : ∀ e : Expr, RationalExpression.from_dim e ≠ Except.ok none
  | Expr.constant _ => by simp [RationalExpression.from_dim]
  | Expr.var _ => by simp [RationalExpression.from_dim]
  | Expr.sum ops => by
    simpa [RationalExpression.from_dim] using
      sumFold_no_none RationalExpression.new_zero ops
  | Expr.product ops => by
    simpa [RationalExpression.from_dim] using
      prodFold_no_none RationalExpression.new_one ops
  | Expr.rational _ => by simp [RationalExpression.from_dim]

/-- The sum fold of `from_dim` never returns the Rust `None`. -/
theorem sumFold_no_none :
    ∀ (acc : RationalExpression) (ops : OperandList),
      RationalExpression.sumFold acc ops ≠ Except.ok none
  | _, OperandList.nil => by simp [RationalExpression.sumFold]
  | acc, OperandList.cons (Operand.mk ty e) rest => by
    rw [RationalExpression.sumFold]
    split
    · simp
    · next heq => exact absurd heq (from_dim_no_none e)
    · split
      · simp
      · next next2 hnew => exact sumFold_no_none next2 rest

/-- The product fold of `from_dim` never returns the Rust `None`. -/
theorem prodFold_no_none :
    ∀ (acc : RationalExpression) (ops : OperandList),
      RationalExpression.prodFold acc ops ≠ Except.ok none
  | _, OperandList.nil => by simp [RationalExpression.prodFold]
  | acc, OperandList.cons (Operand.mk ty e) rest => by
    rw [RationalExpression.prodFold]
    split
    · simp
    · next heq => exact absurd heq (from_dim_no_none e)
    · split
      · split
        · simp
        · next next2 hnew => exact prodFold_no_none next2 rest
      · split
        · simp
        · exact prodFold_no_none _ rest
end

/-- `lowerOf` never returns the Rust `None` either. -/
theorem lowerOf_no_none (e : Expr) : lowerOf e ≠ Except.ok none := by
  cases e <;> first
    | (simp only [lowerOf]; exact from_dim_no_none _)
    | simp [lowerOf]

/-- Every term list maps through the partial-substitution helper to some
term list: the helper itself returns `Some` unconditionally. -/
theorem substPartialTerms_ne_none : ∀ (terms : List CanonicalTerm) (b : Bindings),
    substPartialTerms terms b ≠ none
  | [], _ => by simp [substPartialTerms]
  | t :: ts, b => by
    rw [substPartialTerms]
    rcases h : substPartialTerms ts b with _ | l
    · exact absurd h (substPartialTerms_ne_none ts b)
    · simp [substPartialTerm]

/-- The rational-expression level partial substitution never returns the
Rust `None` (its term helper returns `Some` unconditionally); it returns
a value or aborts. -/
theorem ratSubstPartial_no_none (r : RationalExpression) (b : Bindings) :
    RationalExpression.substPartial r b ≠ Except.ok none := by
  unfold RationalExpression.substPartial
  split
  · next heq => exact absurd heq (substPartialTerms_ne_none r.numer b)
  · next ln heq =>
    split
    · next heq2 => exact absurd heq2 (substPartialTerms_ne_none r.denom b)
    · next ld heq2 =>
      split
      · simp
      · split <;> simp

/-- Amended claim C10.  For every expression and every binding map with
positive values, `partial_substitute` never returns the Rust `None`: the
`None`-producing paths of the optional signatures (of
`Expr::partial_substitute`, `RationalExpression::partial_substitute` and
`from_dim`) are all unreachable.  The call can, however, abort (see the
counterexample), so it does not always return `Some`. -/
theorem C10_no_none (e : Expr) (b : Bindings) (hb : ∀ p ∈ b, 0 < p.2) :
    Expr.substPartial e b ≠ Except.ok none := by
  unfold Expr.substPartial
  split
  · simp
  · next heq => exact absurd heq (lowerOf_no_none e)
  · next r0 heq =>
    split
    · simp
    · next h2 => exact absurd h2 (ratSubstPartial_no_none r0 b)
    · split <;> simp

/-- Counterexample to claim C10 as stated: substituting `a := 2` (a
positive binding) into `b / (a - 2)` empties the lowered denominator, so
`partial_substitute` aborts in `RationalExpression::new` instead of
returning `Some`. -/
theorem C10_counterexample :
    (∀ p ∈ ([(0, 2)] : Bindings), 0 < p.2) ∧
    Expr.substPartial
        (Expr.div (Expr.var 1) (Expr.sub (Expr.var 0) (Expr.constant 2)))
        [(0, 2)]
      = Except.error "Denominator cannot be empty in RationalExpression" := by
  refine ⟨by decide, ?_⟩
  norm_num [Expr.substPartial, lowerOf, Expr.sub, Expr.div, RationalExpression.from_dim,
    RationalExpression.sumFold, RationalExpression.prodFold, RationalExpression.new,
    RationalExpression.new_zero, RationalExpression.new_one, RationalExpression.negR,
    RationalExpression.invert, RationalExpression.simplify, RationalExpression.substPartial,
    substPartialTerms, substPartialTerm, blookup, applySign, applySignInv,
    CanonicalTerm.sum_terms, CanonicalTerm.multiply_terms, CanonicalTerm.terms_divide_by_term,
    CanonicalTerm.multiply, CanonicalTerm.divide, CanonicalTerm.new, CanonicalTerm.with_var,
    CanonicalTerm.is_constant, CanonicalTerm.negT, CanonicalTerm.combine_like_terms,
    combineGroups, groupable, stripZero, termCmp, sortFac, facListCmp, Factor.fcmp,
    mergeFactors, mergeLoop, sortByBase, List.insertionSort, List.orderedInsert,
    Expr.positive, Expr.negative, OperandList.append, OperandList.negAll,
    Operand.negO, Sign.rev, cmp, cmpUsing, Expr.fromRational]

/-- Witness for the amended claim C10 at a concrete input. -/
theorem C10_witness :
    Expr.substPartial (Expr.add (Expr.var 0) (Expr.var 1)) [(0, 2)] ≠
      Except.ok none :=
  C10_no_none (Expr.add (Expr.var 0) (Expr.var 1)) [(0, 2)] (by decide)

end SE

namespace SE

/-! # Claim C6: non-empty denominators -/

mutual
/-- Well-formedness of the `Rational` leaves of an expression: every
embedded rational expression has a non-empty denominator list.  (The
public API of the crate can only embed outputs of `simplify`, which
satisfy this.) -/
def Expr.wfLeaves : Expr → Bool
  | Expr.constant _ => true
  | Expr.var _ => true
  | Expr.sum ops => OperandList.wfLeaves ops
  | Expr.product ops => OperandList.wfLeaves ops
  | Expr.rational r => !r.denom.isEmpty

/-- Well-formedness of every operand of a list. -/
def OperandList.wfLeaves : OperandList → Bool
  | OperandList.nil => true
  | OperandList.cons (Operand.mk _ e) rest => Expr.wfLeaves e && OperandList.wfLeaves rest
end

/-- Along the sum fold, a non-empty accumulator denominator is preserved
(each step is rebuilt through `new`, which rejects empty denominators). -/
theorem sumFold_denom :
    ∀ (acc : RationalExpression) (ops : OperandList) (r : RationalExpression),
      acc.denom ≠ [] → RationalExpression.sumFold acc ops = Except.ok (some r) →
      r.denom ≠ []
  | acc, OperandList.nil, r => by
    intro ha h
    rw [RationalExpression.sumFold] at h
    cases h
    exact ha
  | acc, OperandList.cons (Operand.mk ty e) rest, r => by
    intro ha h
    rw [RationalExpression.sumFold] at h
    split at h
    · cases h
    · cases h
    · split at h
      · cases h
      · next next2 hnew =>
        rcases (new_ok_iff _ _ _).1 hnew with ⟨hne, rfl⟩
        exact sumFold_denom _ rest r hne h

/-- Along the product fold, a non-empty accumulator denominator is
preserved (the cross-multiplying branch goes through `new`, the
divide-through branch keeps the accumulator denominator). -/
theorem prodFold_denom :
    ∀ (acc : RationalExpression) (ops : OperandList) (r : RationalExpression),
      acc.denom ≠ [] → RationalExpression.prodFold acc ops = Except.ok (some r) →
      r.denom ≠ []
  | acc, OperandList.nil, r => by
    intro ha h
    rw [RationalExpression.prodFold] at h
    cases h
    exact ha
  | acc, OperandList.cons (Operand.mk ty e) rest, r => by
    intro ha h
    rw [RationalExpression.prodFold] at h
    split at h
    · cases h
    · cases h
    · split at h
      · split at h
        · cases h
        · next next2 hnew =>
          rcases (new_ok_iff _ _ _).1 hnew with ⟨hne, rfl⟩
          exact prodFold_denom _ rest r hne h
      · split at h
        · cases h
        · refine prodFold_denom _ rest r ?_ h
          exact ha

/-- Lowering a well-formed expression never produces an empty
denominator. -/
theorem from_dim_denom (e : Expr) (r : RationalExpression)
    (hwf : Expr.wfLeaves e = true)
    (h : RationalExpression.from_dim e = Except.ok (some r)) : r.denom ≠ [] := by
  cases e with
  | constant v => rw [RationalExpression.from_dim] at h; cases h; simp
  | var n => rw [RationalExpression.from_dim] at h; cases h; simp
  | sum ops =>
    rw [RationalExpression.from_dim] at h
    exact sumFold_denom RationalExpression.new_zero ops r (by simp [RationalExpression.new_zero]) h
  | product ops =>
    rw [RationalExpression.from_dim] at h
    exact prodFold_denom RationalExpression.new_one ops r (by simp [RationalExpression.new_one]) h
  | rational r0 =>
    rw [RationalExpression.from_dim] at h
    cases h
    simpa [Expr.wfLeaves, List.isEmpty_iff] using hwf

/-- Partial substitution only returns simplify outputs, hence non-empty
denominators. -/
theorem ratSubstPartial_denom (r : RationalExpression) (b : Bindings)
    (s : RationalExpression)
    (h : RationalExpression.substPartial r b = Except.ok (some s)) : s.denom ≠ [] := by
  unfold RationalExpression.substPartial at h
  split at h
  · cases h
  · split at h
    · cases h
    · split at h
      · cases h
      · split at h
        · cases h
        · next s2 hs2 =>
          cases h
          exact simplify_ok_denom _ _ hs2

/-- Counterexample to claim C6 as stated: `invert` swaps the two term
lists with no check, so inverting a rational expression with an empty
numerator (the canonical form of 0, reachable from lowering) produces a
RationalExpression with an empty denominator without any fatal error;
only the subsequent `denom[0]` access of the product fold aborts (with
an out-of-bounds error, not the construction-time one), as the second
conjunct shows on `x / (y - y)`. -/
theorem C6_counterexample :
    (RationalExpression.invert { numer := [], denom := [CanonicalTerm.new 1] }).denom = []
      ∧
    RationalExpression.from_dim
        (Expr.div (Expr.var 0) (Expr.sub (Expr.var 1) (Expr.var 1)))
      = Except.error "index out of bounds" := by
  refine ⟨rfl, ?_⟩
  norm_num [Expr.sub, Expr.div, RationalExpression.from_dim,
    RationalExpression.sumFold, RationalExpression.prodFold, RationalExpression.new,
    RationalExpression.new_zero, RationalExpression.new_one, RationalExpression.negR,
    RationalExpression.invert, applySign, applySignInv,
    CanonicalTerm.sum_terms, CanonicalTerm.multiply_terms, CanonicalTerm.terms_divide_by_term,
    CanonicalTerm.multiply, CanonicalTerm.divide, CanonicalTerm.new, CanonicalTerm.with_var,
    CanonicalTerm.is_constant, CanonicalTerm.negT, CanonicalTerm.combine_like_terms,
    combineGroups, groupable, stripZero, termCmp, sortFac, facListCmp, Factor.fcmp,
    mergeFactors, mergeLoop, sortByBase, List.insertionSort, List.orderedInsert,
    Expr.positive, Expr.negative, OperandList.append, OperandList.negAll,
    Operand.negO, Sign.rev, cmp, cmpUsing]

/-- Amended claim C6.  Constructing a RationalExpression with an empty
denominator fails fatally at construction time, and every
RationalExpression produced by a successful `new`, by lowering a
well-formed expression with `from_dim`, by negation, by `simplify` or by
partial substitution has a non-empty denominator list.  (Inversion is
the exception the counterexample exhibits: it swaps the lists with no
check, and inverting an empty numerator yields an empty denominator,
which the product fold then turns into a fatal out-of-bounds abort
before it reaches the term algebra.) -/
theorem C6_nonempty_denominators :
    (∀ numer, RationalExpression.new numer [] =
      Except.error "Denominator cannot be empty in RationalExpression") ∧
    (∀ numer denom r, RationalExpression.new numer denom = Except.ok r → r.denom ≠ []) ∧
    (∀ r : RationalExpression, (RationalExpression.negR r).denom = r.denom) ∧
    (∀ e r, Expr.wfLeaves e = true →
      RationalExpression.from_dim e = Except.ok (some r) → r.denom ≠ []) ∧
    (∀ r s, RationalExpression.simplify r = Except.ok s → s.denom ≠ []) ∧
    (∀ r b s, RationalExpression.substPartial r b = Except.ok (some s) → s.denom ≠ []) := by
  refine ⟨fun numer => rfl, fun numer denom r h => ?_, fun r => rfl,
    from_dim_denom, simplify_ok_denom, ratSubstPartial_denom⟩
  rcases (new_ok_iff _ _ _).1 h with ⟨hne, rfl⟩
  exact hne

/-- Witness for the amended claim C6 at concrete inputs. -/
theorem C6_witness :
    ({ numer := [CanonicalTerm.with_var 1 0], denom := [CanonicalTerm.new 1] }
      : RationalExpression).denom ≠ [] :=
  C6_nonempty_denominators.2.2.2.1 (Expr.var 0)
    { numer := [CanonicalTerm.with_var 1 0], denom := [CanonicalTerm.new 1] } rfl rfl

end SE

namespace SE

/-! # Claim C1: what `equivalent` computes -/

/-- Classification of a numerator term list in the words of claim C1:
`Some(true)` when every coefficient is exactly zero, `Some(false)` when
the only nonzero terms are the constant ones (no variable factors),
`None` when any nonzero non-constant term is present. -/
def specClassify (numer : List CanonicalTerm) : Option Bool :=
  if numer.all fun t => t.coef == 0 then some true
  else if numer.all fun t => t.is_constant || t.coef == 0 then some false
  else none

/-- The algorithm exactly as claim C1 states it: lower the difference,
simplify, then classify the numerator. -/
def equivalentSpecC1 (a b : Expr) : Except String (Option Bool) :=
  match lowerOf (Expr.sub a b) with
  | Except.error msg => Except.error msg
  | Except.ok none => Except.ok none
  | Except.ok (some r) =>
    match r.simplify with
    | Except.error msg => Except.error msg
    | Except.ok s => Except.ok (specClassify s.numer)

/-- The amended algorithm: identical but with no simplification step,
classifying the numerator of the lowered difference directly. -/
def equivalentSpecNoSimp (a b : Expr) : Except String (Option Bool) :=
  match lowerOf (Expr.sub a b) with
  | Except.error msg => Except.error msg
  | Except.ok none => Except.ok none
  | Except.ok (some r) => Except.ok (specClassify r.numer)

/-- Closed form of the two classification flags: a nonzero constant term
was seen, resp. a nonzero non-constant term was seen. -/
theorem classifyLoop_eq :
    ∀ (ts : List CanonicalTerm) (hnc hnv : Bool),
      classifyLoop hnc hnv ts =
        (hnc || ts.any fun t => t.is_constant && decide (t.coef ≠ 0),
         hnv || ts.any fun t => !t.is_constant && decide (t.coef ≠ 0))
  | [], hnc, hnv => by simp [classifyLoop]
  | t :: ts, hnc, hnv => by
    rcases hc : t.is_constant with _ | _ <;> by_cases h0 : t.coef = 0 <;>
      simp [classifyLoop, hc, h0, classifyLoop_eq ts, Bool.or_assoc, Bool.or_left_comm]

/-- The flag pair in closed form. -/
theorem classifyFlags_eq (ts : List CanonicalTerm) :
    classifyFlags ts =
      (ts.any fun t => t.is_constant && decide (t.coef ≠ 0),
       ts.any fun t => !t.is_constant && decide (t.coef ≠ 0)) := by
  simpa using classifyLoop_eq ts false false

/-- All coefficients are zero exactly when neither flag is set. -/
theorem all_zero_eq_flags (ts : List CanonicalTerm) :
    (ts.all fun t => t.coef == 0) =
      (!(ts.any fun t => t.is_constant && decide (t.coef ≠ 0)) &&
       !(ts.any fun t => !t.is_constant && decide (t.coef ≠ 0))) := by
  induction ts with
  | nil => rfl
  | cons t ts ih =>
    rcases hc : t.is_constant with _ | _ <;> by_cases h0 : t.coef = 0 <;>
      simp [hc, h0, ih]

/-- Every nonzero term is constant exactly when the variable-term flag is
unset. -/
theorem all_const_eq_flag (ts : List CanonicalTerm) :
    (ts.all fun t => t.is_constant || t.coef == 0) =
      !(ts.any fun t => !t.is_constant && decide (t.coef ≠ 0)) := by
  induction ts with
  | nil => rfl
  | cons t ts ih =>
    rcases hc : t.is_constant with _ | _ <;> by_cases h0 : t.coef = 0 <;>
      simp [hc, h0, ih]

/-- The flag-based conditional of the source equals the specification
classification. -/
theorem flags_classify (ts : List CanonicalTerm) :
    (if !(classifyFlags ts).1 && !(classifyFlags ts).2 then
        Except.ok (some true)
      else if (classifyFlags ts).1 && !(classifyFlags ts).2 then
        Except.ok (some false)
      else (Except.ok none : Except String (Option Bool)))
      = Except.ok (specClassify ts) := by
  rw [classifyFlags_eq]
  rcases hP : ts.any fun t => t.is_constant && decide (t.coef ≠ 0) with _ | _ <;>
    rcases hQ : ts.any fun t => !t.is_constant && decide (t.coef ≠ 0) with _ | _ <;>
      (simp only [specClassify, all_zero_eq_flags, all_const_eq_flag, hP, hQ]; simp)

/-- Amended claim C1.  `equivalent` computes the difference as an Expr
subtraction, lowers it to canonical rational form (with no
simplification step), and classifies the lowered numerator exactly as
the claim describes: `Some(true)` when every coefficient is zero,
`Some(false)` when the only nonzero terms are constant, `None` when a
nonzero non-constant term is present (aborts and the `None` of `from_dim`
propagate). -/
theorem C1_equivalent_classifies_lowered_diff (a b : Expr) :
    Expr.equivalent a b = equivalentSpecNoSimp a b := by
  unfold Expr.equivalent equivalentSpecNoSimp
  cases h : lowerOf (Expr.sub a b) with
  | error msg => rfl
  | ok o =>
    cases o with
    | none => rfl
    | some r => exact flags_classify r.numer

/-- Counterexample to claim C1 as stated: the code does not simplify the
lowered difference before classifying.  On `a/a` (as an embedded
rational) versus the constant 0 the lowered difference is `a/a`, whose
unsimplified numerator still carries the variable factor, so the code
answers `None`; the claimed algorithm simplifies `a/a` to `1` first and
answers `Some(false)`. -/
theorem C1_counterexample :
    Expr.equivalent
        (Expr.rational { numer := [CanonicalTerm.with_var 1 0],
                         denom := [CanonicalTerm.with_var 1 0] })
        (Expr.constant 0)
      = Except.ok none ∧
    equivalentSpecC1
        (Expr.rational { numer := [CanonicalTerm.with_var 1 0],
                         denom := [CanonicalTerm.with_var 1 0] })
        (Expr.constant 0)
      = Except.ok (some false) := by
  constructor <;>
    norm_num [Expr.equivalent, equivalentSpecC1, specClassify, lowerOf, Expr.sub,
      RationalExpression.from_dim, RationalExpression.sumFold, RationalExpression.prodFold,
      RationalExpression.new, RationalExpression.new_zero, RationalExpression.new_one,
      RationalExpression.negR, RationalExpression.invert, RationalExpression.simplify,
      applySign, applySignInv,
      CanonicalTerm.sum_terms, CanonicalTerm.multiply_terms,
      CanonicalTerm.terms_divide_by_term, CanonicalTerm.multiply, CanonicalTerm.divide,
      CanonicalTerm.new, CanonicalTerm.with_var, CanonicalTerm.is_constant,
      CanonicalTerm.negT, CanonicalTerm.combine_like_terms, combineGroups, groupable,
      stripZero, termCmp, sortFac, facListCmp, Factor.fcmp, mergeFactors, mergeLoop,
      sortByBase, List.insertionSort, List.orderedInsert, classifyFlags, classifyLoop,
      Expr.positive, Expr.negative, OperandList.append, OperandList.negAll,
      Operand.negO, Sign.rev, cmp, cmpUsing]

end SE

namespace SE

/-! # Claim C5: fatal cases of full substitution -/

/-- The term-value fold is absorbing once it has failed. -/
theorem substTermVal_foldl_none (fs : List Factor) (b : Bindings) :
    fs.foldl
      (fun acc f =>
        match acc with
        | none => none
        | some r =>
          match blookup b f.base with
          | none => none
          | some v =>
            if (0 : Int) < f.exponent then some (r * (v : Rat) ^ f.exponent.toNat)
            else some (r / (v : Rat) ^ (-f.exponent).toNat))
      none = none := by
  induction fs with
  | nil => rfl
  | cons f fs ih => simpa using ih

/-- The term-value fold fails whenever the factor list mentions an
unbound variable, from any starting accumulator. -/
theorem substTermVal_aux (b : Bindings) (v : VarName) (hv : blookup b v = none) :
    ∀ (fs : List Factor) (acc : Option Rat), (∃ f ∈ fs, f.base = v) →
      fs.foldl
        (fun acc f =>
          match acc with
          | none => none
          | some r =>
            match blookup b f.base with
            | none => none
            | some w =>
              if (0 : Int) < f.exponent then some (r * (w : Rat) ^ f.exponent.toNat)
              else some (r / (w : Rat) ^ (-f.exponent).toNat))
        acc = none
  | [], acc => by rintro ⟨f0, hf0, -⟩; cases hf0
  | f :: fs, acc => by
    rintro ⟨f0, hf0, hbase⟩
    rcases List.mem_cons.1 hf0 with rfl | hmem
    · rcases acc with _ | r
      · simpa using substTermVal_foldl_none fs b
      · simp only [List.foldl_cons, hbase, hv]
        exact substTermVal_foldl_none fs b
    · simp only [List.foldl_cons]
      exact substTermVal_aux b v hv fs _ ⟨f0, hmem, hbase⟩

/-- A term whose factors mention an unbound variable evaluates to `none`. -/
theorem substTermVal_unbound (t : CanonicalTerm) (b : Bindings) (v : VarName)
    (hf : ∃ f ∈ t.factors, f.base = v) (hv : blookup b v = none) :
    substTermVal t b = none :=
  substTermVal_aux b v hv t.factors (some t.coef) hf

/-- The sum-of-values fold is absorbing once it has failed. -/
theorem sumSubstVals_foldl_none (ts : List CanonicalTerm) (b : Bindings) :
    ts.foldl
      (fun acc t =>
        match acc, substTermVal t b with
        | some r, some v => some (r + v)
        | _, _ => none)
      none = none := by
  induction ts with
  | nil => rfl
  | cons t ts ih => simpa using ih

/-- A term list containing a failing term sums to `none`. -/
theorem sumSubstVals_unbound (ts : List CanonicalTerm) (b : Bindings)
    (t0 : CanonicalTerm) (ht0 : t0 ∈ ts) (h : substTermVal t0 b = none) :
    sumSubstVals ts b = none := by
  unfold sumSubstVals
  suffices hgen : ∀ acc : Option Rat,
      ts.foldl
        (fun acc t =>
          match acc, substTermVal t b with
          | some r, some v => some (r + v)
          | _, _ => none)
        acc = none by exact hgen (some 0)
  intro acc
  induction ts generalizing acc with
  | nil => cases ht0
  | cons t ts ih =>
    rcases List.mem_cons.1 ht0 with rfl | hmem
    · rcases acc with _ | r <;> simp only [List.foldl_cons, h] <;>
        exact sumSubstVals_foldl_none ts b
    · rcases acc with _ | r
      · simp only [List.foldl_cons]
        exact sumSubstVals_foldl_none ts b
      · rcases hs : substTermVal t b with _ | v <;> simp only [List.foldl_cons, hs]
        · exact sumSubstVals_foldl_none ts b
        · exact ih hmem _

/-- A rational expression mentioning an unbound variable substitutes to
`none`. -/
theorem ratSubstitute_unbound (r : RationalExpression) (b : Bindings) (v : VarName)
    (hv : blookup b v = none)
    (hmem : (∃ t ∈ r.numer, ∃ f ∈ t.factors, f.base = v) ∨
            (∃ t ∈ r.denom, ∃ f ∈ t.factors, f.base = v)) :
    RationalExpression.substitute r b = none := by
  unfold RationalExpression.substitute
  rcases hmem with ⟨t0, ht0, hf⟩ | ⟨t0, ht0, hf⟩
  · rw [sumSubstVals_unbound r.numer b t0 ht0 (substTermVal_unbound t0 b v hf hv)]
  · rw [sumSubstVals_unbound r.denom b t0 ht0 (substTermVal_unbound t0 b v hf hv)]
    rcases sumSubstVals r.numer b with _ | n <;> rfl

mutual
/-- Substitution of an expression that mentions an unbound variable
fails. -/
theorem substitute_unbound :
    ∀ (e : Expr) (b : Bindings) (v : VarName),
      v ∈ Expr.varNames e → blookup b v = none → Expr.substitute e b = none
  | Expr.constant _, b, v => by simp [Expr.varNames]
  | Expr.var n, b, v => by
    intro hmem hv
    rcases List.mem_singleton.1 (by simpa [Expr.varNames] using hmem)
    simpa [Expr.substitute] using hv
  | Expr.sum ops, b, v => by
    intro hmem hv
    rw [Expr.substitute]
    exact sumFoldSub_unbound 0 ops b v (by simpa [Expr.varNames] using hmem) hv
  | Expr.product ops, b, v => by
    intro hmem hv
    rw [Expr.substitute]
    exact prodFoldSub_unbound 1 ops b v (by simpa [Expr.varNames] using hmem) hv
  | Expr.rational r0, b, v => by
    intro hmem hv
    rw [Expr.substitute]
    have : RationalExpression.substitute r0 b = none := by
      refine ratSubstitute_unbound r0 b v hv ?_
      simp only [Expr.varNames, List.mem_append, List.mem_flatMap, List.mem_map] at hmem
      rcases hmem with ⟨t, ht, f, hf, hb⟩ | ⟨t, ht, f, hf, hb⟩
      · exact Or.inl ⟨t, ht, f, hf, hb⟩
      · exact Or.inr ⟨t, ht, f, hf, hb⟩
    rw [this]

/-- The sum fold fails when an operand mentions an unbound variable. -/
theorem sumFoldSub_unbound :
    ∀ (acc : Nat) (ops : OperandList) (b : Bindings) (v : VarName),
      v ∈ OperandList.varNames ops → blookup b v = none →
      Expr.sumFoldSub acc ops b = none
  | _, OperandList.nil, b, v => by simp [OperandList.varNames]
  | acc, OperandList.cons (Operand.mk ty e) rest, b, v => by
    intro hmem hv
    rcases List.mem_append.1 (by simpa [OperandList.varNames] using hmem) with he | hrest
    · rw [Expr.sumFoldSub, substitute_unbound e b v he hv]
    · rcases hs : Expr.substitute e b with _ | value
      · rw [Expr.sumFoldSub, hs]
      · cases ty
        · simp only [Expr.sumFoldSub, hs]
          exact sumFoldSub_unbound _ rest b v hrest hv
        · simp only [Expr.sumFoldSub, hs]
          by_cases hle : value ≤ acc
          · rw [if_pos hle]
            exact sumFoldSub_unbound _ rest b v hrest hv
          · rw [if_neg hle]

/-- The product fold fails when an operand mentions an unbound variable. -/
theorem prodFoldSub_unbound :
    ∀ (acc : Nat) (ops : OperandList) (b : Bindings) (v : VarName),
      v ∈ OperandList.varNames ops → blookup b v = none →
      Expr.prodFoldSub acc ops b = none
  | _, OperandList.nil, b, v => by simp [OperandList.varNames]
  | acc, OperandList.cons (Operand.mk ty e) rest, b, v => by
    intro hmem hv
    rcases List.mem_append.1 (by simpa [OperandList.varNames] using hmem) with he | hrest
    · rw [Expr.prodFoldSub, substitute_unbound e b v he hv]
    · rcases hs : Expr.substitute e b with _ | value
      · rw [Expr.prodFoldSub, hs]
      · cases ty
        · simp only [Expr.prodFoldSub, hs]
          exact prodFoldSub_unbound _ rest b v hrest hv
        · simp only [Expr.prodFoldSub, hs]
          by_cases hdvd : value ≠ 0 ∧ acc % value = 0
          · rw [if_pos hdvd]
            exact prodFoldSub_unbound _ rest b v hrest hv
          · rw [if_neg hdvd]
end

/-- Splitting the sum fold at a list concatenation. -/
theorem sumFoldSub_append :
    ∀ (ops1 ops2 : OperandList) (acc : Nat) (b : Bindings),
      Expr.sumFoldSub acc (ops1.append ops2) b =
        (match Expr.sumFoldSub acc ops1 b with
          | none => none
          | some acc2 => Expr.sumFoldSub acc2 ops2 b)
  | OperandList.nil, ops2, acc, b => by simp [Expr.sumFoldSub, OperandList.append]
  | OperandList.cons (Operand.mk ty e) rest, ops2, acc, b => by
    rw [OperandList.append]
    rcases hs : Expr.substitute e b with _ | value
    · simp only [Expr.sumFoldSub, hs]
    · cases ty
      · simp only [Expr.sumFoldSub, hs]
        exact sumFoldSub_append rest ops2 _ b
      · simp only [Expr.sumFoldSub, hs]
        by_cases hle : value ≤ acc
        · rw [if_pos hle, if_pos hle]
          exact sumFoldSub_append rest ops2 _ b
        · rw [if_neg hle, if_neg hle]

/-- Splitting the product fold at a list concatenation. -/
theorem prodFoldSub_append :
    ∀ (ops1 ops2 : OperandList) (acc : Nat) (b : Bindings),
      Expr.prodFoldSub acc (ops1.append ops2) b =
        (match Expr.prodFoldSub acc ops1 b with
          | none => none
          | some acc2 => Expr.prodFoldSub acc2 ops2 b)
  | OperandList.nil, ops2, acc, b => by simp [Expr.prodFoldSub, OperandList.append]
  | OperandList.cons (Operand.mk ty e) rest, ops2, acc, b => by
    rw [OperandList.append]
    rcases hs : Expr.substitute e b with _ | value
    · simp only [Expr.prodFoldSub, hs]
    · cases ty
      · simp only [Expr.prodFoldSub, hs]
        exact prodFoldSub_append rest ops2 _ b
      · simp only [Expr.prodFoldSub, hs]
        by_cases hdvd : value ≠ 0 ∧ acc % value = 0
        · rw [if_pos hdvd, if_pos hdvd]
          exact prodFoldSub_append rest ops2 _ b
        · rw [if_neg hdvd, if_neg hdvd]

/-- Claim C5.  Full substitution fails fatally in exactly the claimed
situations: (1) some variable of the expression is unbound; (2) a
negative `Sum` operand makes the checked subtraction underflow; (3) a
negative `Product` operand does not divide the accumulator exactly;
(4) a `Rational` leaf evaluates to a value with denominator other
than 1 - and in the `Rational` case with denominator 1 the returned
integer is the absolute value of the evaluated numerator (5). -/
theorem C5_substitute_fatal_cases :
    (∀ (e : Expr) (b : Bindings) (v : VarName),
      v ∈ Expr.varNames e → blookup b v = none → Expr.substitute e b = none) ∧
    (∀ (ops1 ops2 : OperandList) (y : Expr) (b : Bindings) (acc vy : Nat),
      Expr.sumFoldSub 0 ops1 b = some acc →
      Expr.substitute y b = some vy →
      acc < vy →
      Expr.substitute
        (Expr.sum (ops1.append (OperandList.cons (Operand.mk Sign.negative y) ops2))) b
        = none) ∧
    (∀ (ops1 ops2 : OperandList) (y : Expr) (b : Bindings) (acc vy : Nat),
      Expr.prodFoldSub 1 ops1 b = some acc →
      Expr.substitute y b = some vy →
      acc % vy ≠ 0 →
      Expr.substitute
        (Expr.product (ops1.append (OperandList.cons (Operand.mk Sign.negative y) ops2))) b
        = none) ∧
    (∀ (r : RationalExpression) (b : Bindings) (q : Rat),
      RationalExpression.substitute r b = some q → q.den ≠ 1 →
      Expr.substitute (Expr.rational r) b = none) ∧
    (∀ (r : RationalExpression) (b : Bindings) (q : Rat),
      RationalExpression.substitute r b = some q → q.den = 1 →
      Expr.substitute (Expr.rational r) b = some q.num.natAbs) := by
  refine ⟨substitute_unbound, ?_, ?_, ?_, ?_⟩
  · intro ops1 ops2 y b acc vy h1 h2 hlt
    rw [Expr.substitute, sumFoldSub_append, h1]
    show Expr.sumFoldSub acc (OperandList.cons (Operand.mk Sign.negative y) ops2) b = none
    simp only [Expr.sumFoldSub, h2]
    simp [Nat.not_le.2 hlt]
  · intro ops1 ops2 y b acc vy h1 h2 hmod
    rw [Expr.substitute, prodFoldSub_append, h1]
    show Expr.prodFoldSub acc (OperandList.cons (Operand.mk Sign.negative y) ops2) b = none
    simp only [Expr.prodFoldSub, h2]
    have hne : ¬(vy ≠ 0 ∧ acc % vy = 0) := by
      rintro ⟨h0, hex⟩
      exact hmod hex
    simp [hne]
  · intro r b q h1 hden
    rw [Expr.substitute, h1]
    simp [hden]
  · intro r b q h1 hden
    rw [Expr.substitute, h1]
    simp [hden]

/-- Witness for claim C5 at concrete inputs: substituting the lone
variable `a` with a binding map for `b` only fails, and substituting the
embedded rational 1/2 under the empty binding map fails, while the
embedded rational 6/2 yields the integer 3. -/
theorem C5_witness :
    Expr.substitute (Expr.var 0) [(1, 2)] = none ∧
    Expr.substitute
        (Expr.rational { numer := [CanonicalTerm.new 1], denom := [CanonicalTerm.new 2] })
        [] = none ∧
    Expr.substitute
        (Expr.rational { numer := [CanonicalTerm.new 6], denom := [CanonicalTerm.new 2] })
        [] = some 3 := by
  refine ⟨C5_substitute_fatal_cases.1 (Expr.var 0) [(1, 2)] 0 (by simp [Expr.varNames])
      (by simp [blookup]), ?_, ?_⟩
  · refine C5_substitute_fatal_cases.2.2.2.1 _ [] ((1 : Rat)/2) ?_ (by norm_num [Rat.den])
    norm_num [RationalExpression.substitute, sumSubstVals, substTermVal, CanonicalTerm.new]
  · have h := C5_substitute_fatal_cases.2.2.2.2
      { numer := [CanonicalTerm.new 6], denom := [CanonicalTerm.new 2] } [] ((3 : Rat))
      (by norm_num [RationalExpression.substitute, sumSubstVals, substTermVal,
        CanonicalTerm.new]) (by norm_num [Rat.den])
    simpa using h

end SE

namespace SE

/-! # Order-theoretic facts about the comparators -/

theorem cmp_ne_gt_iff_le {x y : Nat} : cmp x y ≠ Ordering.gt ↔ x ≤ y := by
  rw [Ne, cmp_eq_gt_iff, not_lt]

theorem fcmp_eq_eq_iff (f g : Factor) : Factor.fcmp f g = Ordering.eq ↔ f = g := by
  unfold Factor.fcmp
  rw [Ordering.then_eq_eq, cmp_eq_eq_iff, cmp_eq_eq_iff]
  cases f
  cases g
  simp

theorem fcmp_swap (f g : Factor) : (Factor.fcmp f g).swap = Factor.fcmp g f := by
  unfold Factor.fcmp
  rw [Ordering.swap_then, cmp_swap, cmp_swap]

theorem fcmp_eq_lt_iff (f g : Factor) :
    Factor.fcmp f g = Ordering.lt ↔
      (f.base < g.base ∨ (f.base = g.base ∧ f.exponent < g.exponent)) := by
  unfold Factor.fcmp
  rw [Ordering.then_eq_lt, cmp_eq_lt_iff, cmp_eq_eq_iff, cmp_eq_lt_iff]

theorem fcmp_lt_trans {f g h : Factor} (h1 : Factor.fcmp f g = Ordering.lt)
    (h2 : Factor.fcmp g h = Ordering.lt) : Factor.fcmp f h = Ordering.lt := by
  rw [fcmp_eq_lt_iff] at h1 h2 ⊢
  rcases h1 with h1 | ⟨e1, l1⟩ <;> rcases h2 with h2 | ⟨e2, l2⟩
  · exact Or.inl (h1.trans h2)
  · exact Or.inl (e2 ▸ h1)
  · exact Or.inl (e1 ▸ h2)
  · exact Or.inr ⟨e1.trans e2, l1.trans l2⟩

theorem facListCmp_eq_eq_iff : ∀ (l1 l2 : List Factor),
    facListCmp l1 l2 = Ordering.eq ↔ l1 = l2
  | [], [] => by simp [facListCmp]
  | [], g :: gs => by simp [facListCmp]
  | f :: fs, [] => by simp [facListCmp]
  | f :: fs, g :: gs => by
    rw [facListCmp, Ordering.then_eq_eq, fcmp_eq_eq_iff, facListCmp_eq_eq_iff fs gs]
    simp

theorem facListCmp_swap : ∀ (l1 l2 : List Factor),
    (facListCmp l1 l2).swap = facListCmp l2 l1
  | [], [] => rfl
  | [], _ :: _ => rfl
  | _ :: _, [] => rfl
  | f :: fs, g :: gs => by
    rw [facListCmp, facListCmp, Ordering.swap_then, fcmp_swap, facListCmp_swap fs gs]

theorem facListCmp_lt_trans : ∀ {l1 l2 l3 : List Factor},
    facListCmp l1 l2 = Ordering.lt → facListCmp l2 l3 = Ordering.lt →
    facListCmp l1 l3 = Ordering.lt
  | [], [], _, h1, h2 => by cases h1
  | [], _ :: _, [], h1, h2 => by cases h2
  | [], _ :: _, _ :: _, h1, h2 => rfl
  | _ :: _, [], _, h1, h2 => by cases h1
  | _ :: _, _ :: _, [], h1, h2 => by cases h2
  | f :: fs, g :: gs, k :: ks, h1, h2 => by
    rw [facListCmp, Ordering.then_eq_lt] at h1 h2 ⊢
    rcases h1 with h1 | ⟨h1e, h1r⟩ <;> rcases h2 with h2 | ⟨h2e, h2r⟩
    · exact Or.inl (fcmp_lt_trans h1 h2)
    · obtain rfl := (fcmp_eq_eq_iff g k).1 h2e
      exact Or.inl h1
    · obtain rfl := (fcmp_eq_eq_iff f g).1 h1e
      exact Or.inl h2
    · obtain rfl := (fcmp_eq_eq_iff f g).1 h1e
      obtain rfl := (fcmp_eq_eq_iff f k).1 h2e
      exact Or.inr ⟨(fcmp_eq_eq_iff f f).2 rfl, facListCmp_lt_trans h1r h2r⟩

theorem facListCmp_le_trans {l1 l2 l3 : List Factor}
    (h1 : facListCmp l1 l2 ≠ Ordering.gt) (h2 : facListCmp l2 l3 ≠ Ordering.gt) :
    facListCmp l1 l3 ≠ Ordering.gt := by
  rcases ha : facListCmp l1 l2 with _ | _ | _
  · rcases hb : facListCmp l2 l3 with _ | _ | _
    · simp [facListCmp_lt_trans ha hb]
    · rcases (facListCmp_eq_eq_iff l2 l3).1 hb with rfl
      simp [ha]
    · exact absurd hb h2
  · rcases (facListCmp_eq_eq_iff l1 l2).1 ha with rfl
    exact h2
  · exact absurd ha h1

theorem facListCmp_lt_le_trans {l1 l2 l3 : List Factor}
    (h1 : facListCmp l1 l2 = Ordering.lt) (h2 : facListCmp l2 l3 ≠ Ordering.gt) :
    facListCmp l1 l3 = Ordering.lt := by
  rcases hb : facListCmp l2 l3 with _ | _ | _
  · exact facListCmp_lt_trans h1 hb
  · rcases (facListCmp_eq_eq_iff l2 l3).1 hb with rfl
    exact h1
  · exact absurd hb h2

end SE

namespace SE

/-! # Term-level comparator facts -/

/-- Sortedness (with ties allowed) for the three sort relations. -/
instance : IsTotal Factor facBaseLe :=
  ⟨fun f g => by
    unfold facBaseLe
    rw [cmp_ne_gt_iff_le, cmp_ne_gt_iff_le]
    exact le_total _ _⟩

instance : IsTrans Factor facBaseLe :=
  ⟨fun f g h => by
    unfold facBaseLe
    rw [cmp_ne_gt_iff_le, cmp_ne_gt_iff_le, cmp_ne_gt_iff_le]
    exact le_trans⟩

theorem fcmp_le_trans {f g h : Factor} (h1 : Factor.fcmp f g ≠ Ordering.gt)
    (h2 : Factor.fcmp g h ≠ Ordering.gt) : Factor.fcmp f h ≠ Ordering.gt := by
  rcases ha : Factor.fcmp f g with _ | _ | _
  · rcases hb : Factor.fcmp g h with _ | _ | _
    · simp [fcmp_lt_trans ha hb]
    · rcases (fcmp_eq_eq_iff g h).1 hb with rfl
      simp [ha]
    · exact absurd hb h2
  · rcases (fcmp_eq_eq_iff f g).1 ha with rfl
    exact h2
  · exact absurd ha h1

instance : IsTotal Factor facLe :=
  ⟨fun f g => by
    unfold facLe
    by_cases h : Factor.fcmp f g = Ordering.gt
    · right
      rw [← fcmp_swap, h]
      decide
    · exact Or.inl h⟩

instance : IsTrans Factor facLe := ⟨fun f g h => fcmp_le_trans⟩

/-- The term comparator only reads the factor lists (never the
coefficients). -/
theorem is_constant_congr {a b : CanonicalTerm} (h : a.factors = b.factors) :
    a.is_constant = b.is_constant := by
  unfold CanonicalTerm.is_constant
  rw [h]

theorem termCmp_congr {a a2 b b2 : CanonicalTerm} (h1 : a.factors = a2.factors)
    (h2 : b.factors = b2.factors) : termCmp a b = termCmp a2 b2 := by
  unfold termCmp sortFac
  rw [is_constant_congr h1, is_constant_congr h2, h1, h2]

theorem groupable_congr {a a2 b b2 : CanonicalTerm} (h1 : a.factors = a2.factors)
    (h2 : b.factors = b2.factors) : groupable a b ↔ groupable a2 b2 := by
  unfold groupable
  rw [is_constant_congr h1, is_constant_congr h2, h1, h2]

theorem termCmp_swap (a b : CanonicalTerm) : (termCmp a b).swap = termCmp b a := by
  unfold termCmp
  rcases ha : a.is_constant with _ | _ <;> rcases hb : b.is_constant with _ | _ <;>
    (simp only [ha, hb, Bool.false_eq_true, if_true, if_false];
      first
        | rfl
        | exact facListCmp_swap _ _)

theorem termCmp_le_trans {a b c : CanonicalTerm} (h1 : termCmp a b ≠ Ordering.gt)
    (h2 : termCmp b c ≠ Ordering.gt) : termCmp a c ≠ Ordering.gt := by
  unfold termCmp at h1 h2 ⊢
  rcases ha : a.is_constant with _ | _ <;> rcases hb : b.is_constant with _ | _ <;>
    rcases hc : c.is_constant with _ | _ <;> simp [ha, hb, hc] at h1 h2 ⊢ <;>
      exact facListCmp_le_trans h1 h2

theorem termCmp_lt_le_trans {a b c : CanonicalTerm} (h1 : termCmp a b = Ordering.lt)
    (h2 : termCmp b c ≠ Ordering.gt) : termCmp a c = Ordering.lt := by
  unfold termCmp at h1 h2 ⊢
  rcases ha : a.is_constant with _ | _ <;> rcases hb : b.is_constant with _ | _ <;>
    rcases hc : c.is_constant with _ | _ <;> simp [ha, hb, hc] at h1 h2 ⊢ <;>
      exact facListCmp_lt_le_trans h1 h2

instance : IsTrans CanonicalTerm termLe := ⟨fun _ _ _ => termCmp_le_trans⟩

instance : IsTotal CanonicalTerm termLe :=
  ⟨fun a b => by
    unfold termLe
    by_cases h : termCmp a b = Ordering.gt
    · right
      rw [← termCmp_swap, h]
      decide
    · exact Or.inl h⟩

/-- A term with no zero-exponent factors is constant exactly when its
factor list is empty. -/
theorem is_constant_stripped {t : CanonicalTerm}
    (h : ∀ f ∈ t.factors, f.exponent ≠ 0) :
    t.is_constant = true ↔ t.factors = [] := by
  rcases ht : t.factors with _ | ⟨f, fs⟩
  · simp [CanonicalTerm.is_constant, ht]
  · simp only [CanonicalTerm.is_constant, ht, List.isEmpty_cons, Bool.false_or,
      List.all_eq_true]
    constructor
    · intro hc
      exact absurd (by simpa using hc f (List.mem_cons_self f fs))
        (h f (by simp [ht]))
    · intro hc
      cases hc

/-- Invariant of the terms flowing through `combine_like_terms` in the
amended claims: a sorted factor list with no zero exponents. -/
def TermOK (t : CanonicalTerm) : Prop :=
  List.Sorted facLe t.factors ∧ ∀ f ∈ t.factors, f.exponent ≠ 0

/-- Sorting a sorted factor list is the identity. -/
theorem sortFac_eq_self {l : List Factor} (h : List.Sorted facLe l) : sortFac l = l :=
  List.Sorted.insertionSort_eq h

/-- For groupable terms the comparator answers `Equal` (for terms with no
zero-exponent factors). -/
theorem termCmp_eq_of_groupable {a b : CanonicalTerm}
    (ha : ∀ f ∈ a.factors, f.exponent ≠ 0) (hb : ∀ f ∈ b.factors, f.exponent ≠ 0)
    (h : groupable a b) : termCmp a b = Ordering.eq := by
  rcases h with h | ⟨hca, hcb⟩
  · unfold termCmp
    rw [is_constant_congr h, h]
    rcases b.is_constant with _ | _ <;> simp [(facListCmp_eq_eq_iff _ _).2 rfl]
  · unfold termCmp
    rw [hca, hcb]
    have h1 : a.factors = [] := (is_constant_stripped ha).1 hca
    have h2 : b.factors = [] := (is_constant_stripped hb).1 hcb
    simp [sortFac, h1, h2, facListCmp]

/-- Conversely, on terms with sorted, zero-free factor lists an `Equal`
answer forces groupability (indeed equal factor lists or two constants). -/
theorem groupable_of_termCmp_eq {a b : CanonicalTerm}
    (ha : TermOK a) (hb : TermOK b) (h : termCmp a b = Ordering.eq) :
    groupable a b := by
  unfold termCmp at h
  rcases hca : a.is_constant with _ | _ <;> rcases hcb : b.is_constant with _ | _ <;>
    rw [hca, hcb] at h <;> simp only [Bool.false_eq_true, if_true, if_false] at h
  · left
    have := (facListCmp_eq_eq_iff _ _).1 h
    rwa [sortFac_eq_self ha.1, sortFac_eq_self hb.1] at this
  · cases h
  · cases h
  · exact Or.inr ⟨hca, hcb⟩

/-- A non-constant term compares greater than any constant term. -/
theorem termCmp_gt_of_const {a b : CanonicalTerm} (ha : a.is_constant = false)
    (hb : b.is_constant = true) : termCmp a b = Ordering.gt := by
  simp [termCmp, ha, hb]

end SE

namespace SE

/-! # The grouping loop of combine_like_terms -/

/-- Master lemma about the grouping loop on a sorted list of terms with
sorted, zero-free factor lists: the output is sorted, pairwise
non-groupable (so each factor-list shape occurs at most once and at most
one constant survives), has no zero coefficients, and every output term
takes its factor list from an input term. -/
theorem combineGroups_some_props :
    ∀ (l : List CanonicalTerm) (prev : CanonicalTerm),
      List.Sorted termLe (prev :: l) →
      (∀ t ∈ prev :: l, TermOK t) →
      List.Sorted termLe (combineGroups (some prev) l) ∧
      List.Pairwise (fun a b => ¬ groupable a b) (combineGroups (some prev) l) ∧
      (∀ t ∈ combineGroups (some prev) l, t.coef ≠ 0) ∧
      (∀ t ∈ combineGroups (some prev) l, ∃ u ∈ prev :: l, t.factors = u.factors)
  | [], prev => by
    intro hs hok
    rw [combineGroups]
    by_cases hc : prev.coef ≠ 0
    · rw [if_pos hc]
      refine ⟨List.sorted_singleton prev, List.pairwise_singleton _ prev, ?_, ?_⟩
      · intro t ht
        rw [List.mem_singleton.1 ht]
        exact hc
      · intro t ht
        exact ⟨prev, List.mem_cons_self prev [], by rw [List.mem_singleton.1 ht]⟩
    · rw [if_neg hc]
      exact ⟨List.sorted_nil, List.Pairwise.nil, by simp, by simp⟩
  | t :: ts, prev => by
    intro hs hok
    obtain ⟨hp, hst⟩ := List.sorted_cons.1 hs
    obtain ⟨hpt2, hsts⟩ := List.sorted_cons.1 hst
    by_cases hg : groupable prev t
    · rw [combineGroups, if_pos hg]
      have hok2 : ∀ u ∈ ({ prev with coef := prev.coef + t.coef } : CanonicalTerm) :: ts,
          TermOK u := by
        intro u hu
        rcases List.mem_cons.1 hu with rfl | hu
        · exact hok prev (List.mem_cons_self _ _)
        · exact hok u (List.mem_cons_of_mem _ (List.mem_cons_of_mem _ hu))
      have hs2 : List.Sorted termLe
          (({ prev with coef := prev.coef + t.coef } : CanonicalTerm) :: ts) := by
        refine List.sorted_cons.2 ⟨?_, hsts⟩
        intro b hb
        have : termCmp { prev with coef := prev.coef + t.coef } b = termCmp prev b :=
          termCmp_congr rfl rfl
        unfold termLe
        rw [this]
        exact hp b (List.mem_cons_of_mem _ hb)
      obtain ⟨r1, r2, r3, r4⟩ := combineGroups_some_props ts _ hs2 hok2
      refine ⟨r1, r2, r3, ?_⟩
      intro u hu
      obtain ⟨w, hw, hfac⟩ := r4 u hu
      rcases List.mem_cons.1 hw with rfl | hw
      · exact ⟨prev, List.mem_cons_self _ _, hfac⟩
      · exact ⟨w, List.mem_cons_of_mem _ (List.mem_cons_of_mem _ hw), hfac⟩
    · rw [combineGroups, if_neg hg]
      have hokts : ∀ u ∈ t :: ts, TermOK u := fun u hu =>
        hok u (List.mem_cons_of_mem _ hu)
      obtain ⟨r1, r2, r3, r4⟩ := combineGroups_some_props ts t hst hokts
      have hconn : ∀ u ∈ combineGroups (some t) ts,
          termLe prev u ∧ ¬ groupable prev u := by
        intro u hu
        obtain ⟨w, hw, hfac⟩ := r4 u hu
        have hcw : termCmp prev u = termCmp prev w := termCmp_congr rfl hfac
        have hlew : termLe prev w := hp w hw
        have hngw : ¬ groupable prev w := by
          intro hgw
          have heqw : termCmp prev w = Ordering.eq :=
            termCmp_eq_of_groupable (hok prev (List.mem_cons_self _ _)).2
              (hokts w hw).2 hgw
          rcases List.mem_cons.1 hw with rfl | hw2
          · exact hg hgw
          · rcases hpt : termCmp prev t with _ | _ | _
            · have := termCmp_lt_le_trans hpt (hpt2 w hw2)
              rw [heqw] at this
              cases this
            · exact hg (groupable_of_termCmp_eq (hok prev (List.mem_cons_self _ _))
                (hok t (List.mem_cons_of_mem _ (List.mem_cons_self _ _))) hpt)
            · exact absurd hpt (hp t (List.mem_cons_self _ _))
        constructor
        · unfold termLe
          rw [hcw]
          exact hlew
        · rw [groupable_congr (rfl : prev.factors = prev.factors) hfac]
          exact hngw
      by_cases hc : prev.coef ≠ 0
      · rw [if_pos hc]
        rw [List.singleton_append]
        refine ⟨List.sorted_cons.2 ⟨fun u hu => (hconn u hu).1, r1⟩,
          List.pairwise_cons.2 ⟨fun u hu => (hconn u hu).2, r2⟩, ?_, ?_⟩
        · intro u hu
          rcases List.mem_cons.1 hu with rfl | hu
          · exact hc
          · exact r3 u hu
        · intro u hu
          rcases List.mem_cons.1 hu with rfl | hu
          · exact ⟨u, List.mem_cons_self _ _, rfl⟩
          · obtain ⟨w, hw, hfac⟩ := r4 u hu
            exact ⟨w, List.mem_cons_of_mem _ hw, hfac⟩
      · rw [if_neg hc, List.nil_append]
        refine ⟨r1, r2, r3, ?_⟩
        intro u hu
        obtain ⟨w, hw, hfac⟩ := r4 u hu
        exact ⟨w, List.mem_cons_of_mem _ hw, hfac⟩

/-- The grouping loop from the empty accumulator. -/
theorem combineGroups_none_props (l : List CanonicalTerm)
    (hs : List.Sorted termLe l) (hok : ∀ t ∈ l, TermOK t) :
    List.Sorted termLe (combineGroups none l) ∧
    List.Pairwise (fun a b => ¬ groupable a b) (combineGroups none l) ∧
    (∀ t ∈ combineGroups none l, t.coef ≠ 0) ∧
    (∀ t ∈ combineGroups none l, ∃ u ∈ l, t.factors = u.factors) := by
  cases l with
  | nil => exact ⟨List.sorted_nil, List.Pairwise.nil, by simp [combineGroups], by
      simp [combineGroups]⟩
  | cons t ts =>
    rw [show combineGroups none (t :: ts) = combineGroups (some t) ts from rfl]
    exact combineGroups_some_props ts t hs (fun u hu => hok u hu)

/-- Removing the zero-exponent factors of a term with a sorted factor
list produces a `TermOK` term of the same constant status as intended. -/
theorem stripZero_TermOK {t : CanonicalTerm} (h : List.Sorted facLe t.factors) :
    TermOK (stripZero t) := by
  constructor
  · exact h.filter _
  · intro f hf
    have := (List.mem_filter.1 hf).2
    simpa using this

/-- Main canonicality lemma for `combine_like_terms` on inputs whose
factor lists are sorted. -/
theorem combine_like_terms_props (l : List CanonicalTerm)
    (hfac : ∀ t ∈ l, List.Sorted facLe t.factors) :
    List.Sorted termLe (CanonicalTerm.combine_like_terms l) ∧
    List.Pairwise (fun a b => ¬ groupable a b) (CanonicalTerm.combine_like_terms l) ∧
    (∀ t ∈ CanonicalTerm.combine_like_terms l, t.coef ≠ 0) ∧
    (∀ t ∈ CanonicalTerm.combine_like_terms l, TermOK t) := by
  unfold CanonicalTerm.combine_like_terms
  have hok2 : ∀ t ∈ List.insertionSort termLe (l.map stripZero), TermOK t := by
    intro t ht
    have := (List.perm_insertionSort termLe (l.map stripZero)).mem_iff.1 ht
    obtain ⟨u, hu, rfl⟩ := List.mem_map.1 this
    exact stripZero_TermOK (hfac u hu)
  have hs2 : List.Sorted termLe (List.insertionSort termLe (l.map stripZero)) :=
    List.sorted_insertionSort termLe (l.map stripZero)
  obtain ⟨r1, r2, r3, r4⟩ := combineGroups_none_props _ hs2 hok2
  refine ⟨r1, r2, r3, ?_⟩
  intro t ht
  obtain ⟨u, hu, hfac2⟩ := r4 t ht
  obtain ⟨h1, h2⟩ := hok2 u hu
  exact ⟨hfac2 ▸ h1, fun f hf => h2 f (hfac2 ▸ hf)⟩

/-! # Second application of combine_like_terms -/

/-- A term whose factor list has no zero exponents is untouched by
`stripZero`. -/
theorem stripZero_eq_self {t : CanonicalTerm}
    (h : ∀ f ∈ t.factors, f.exponent ≠ 0) : stripZero t = t := by
  unfold stripZero
  have : t.factors.filter (fun f => decide (f.exponent ≠ 0)) = t.factors :=
    List.filter_eq_self.2 fun f hf => by simpa using h f hf
  rw [this]

/-- The grouping loop is the identity on a list of nonzero-coefficient
terms with no two adjacent groupable terms. -/
theorem combineGroups_id :
    ∀ (l : List CanonicalTerm) (prev : CanonicalTerm),
      (∀ t ∈ prev :: l, t.coef ≠ 0) →
      List.Chain' (fun a b => ¬ groupable a b) (prev :: l) →
      combineGroups (some prev) l = prev :: l
  | [], prev => by
    intro hnz hch
    rw [combineGroups, if_pos (hnz prev (List.mem_cons_self _ _))]
  | t :: ts, prev => by
    intro hnz hch
    obtain ⟨hng, hch2⟩ := List.chain'_cons.1 hch
    rw [combineGroups, if_neg hng, if_pos (hnz prev (List.mem_cons_self _ _)),
      combineGroups_id ts t (fun u hu => hnz u (List.mem_cons_of_mem _ hu)) hch2,
      List.singleton_append]

/-- `combine_like_terms` is the identity on sorted lists of stripped,
nonzero, pairwise-adjacent-non-groupable terms. -/
theorem combine_like_terms_id (l : List CanonicalTerm)
    (h1 : List.Sorted termLe l)
    (h2 : List.Chain' (fun a b => ¬ groupable a b) l)
    (h3 : ∀ t ∈ l, t.coef ≠ 0)
    (h4 : ∀ t ∈ l, ∀ f ∈ t.factors, f.exponent ≠ 0) :
    CanonicalTerm.combine_like_terms l = l := by
  unfold CanonicalTerm.combine_like_terms
  have hmap : l.map stripZero = l := by
    have := List.map_congr_left fun t ht => stripZero_eq_self (h4 t ht)
    simpa using this
  rw [hmap, List.Sorted.insertionSort_eq h1]
  cases l with
  | nil => rfl
  | cons t ts =>
    rw [show combineGroups none (t :: ts) = combineGroups (some t) ts from rfl]
    exact combineGroups_id ts t h3 h2

/-- Idempotence of `combine_like_terms` on inputs with sorted factor
lists. -/
theorem combine_like_terms_idem (l : List CanonicalTerm)
    (hfac : ∀ t ∈ l, List.Sorted facLe t.factors) :
    CanonicalTerm.combine_like_terms (CanonicalTerm.combine_like_terms l) =
      CanonicalTerm.combine_like_terms l := by
  obtain ⟨r1, r2, r3, r4⟩ := combine_like_terms_props l hfac
  exact combine_like_terms_id _ r1 r2.chain' r3 (fun t ht => (r4 t ht).2)

end SE

namespace SE

/-! # Claims C7 and C9 -/

/-- Amended claim C7.  For every input list whose terms carry sorted
factor lists (as all term lists built by the term algebra of this crate
do), the output of `combine_like_terms` is canonical: it is sorted by
the term comparator with the constant terms first, it contains at most
one constant term, each distinct factor-list shape appears in at most
one term, and no zero-coefficient term remains. -/
theorem C7_combine_canonical (l : List CanonicalTerm)
    (hfac : ∀ t ∈ l, List.Sorted facLe t.factors) :
    List.Sorted termLe (CanonicalTerm.combine_like_terms l) ∧
    List.Pairwise (fun a b => b.is_constant = true → a.is_constant = true)
      (CanonicalTerm.combine_like_terms l) ∧
    (∀ a ∈ CanonicalTerm.combine_like_terms l, ∀ b ∈ CanonicalTerm.combine_like_terms l,
      a.is_constant = true → b.is_constant = true → a = b) ∧
    List.Pairwise (fun a b => a.factors ≠ b.factors)
      (CanonicalTerm.combine_like_terms l) ∧
    (∀ t ∈ CanonicalTerm.combine_like_terms l, t.coef ≠ 0) := by
  obtain ⟨r1, r2, r3, r4⟩ := combine_like_terms_props l hfac
  refine ⟨r1, ?_, ?_, ?_, r3⟩
  · refine r1.imp ?_
    intro a b hab hbc
    rcases hac : a.is_constant with _ | _
    · exact absurd (termCmp_gt_of_const hac hbc) hab
    · rfl
  · intro a ha b hb hac hbc
    by_contra hne
    have hsymm : Symmetric fun a b : CanonicalTerm => ¬ groupable a b := by
      intro x y hxy hg
      refine hxy ?_
      rcases hg with hg | hg
      · exact Or.inl hg.symm
      · exact Or.inr ⟨hg.2, hg.1⟩
    exact (r2.forall hsymm) ha hb hne (Or.inr ⟨hac, hbc⟩)
  · exact r2.imp fun h heq => h (Or.inl heq)

/-- Counterexample to claim C7 as stated: on an input whose factor lists
are not sorted, terms with the same monomial shape fail to group.  The
shapes `[x0, x1]` and `[x1, x0]` compare equal (the comparator sorts
copies) but the grouping step compares the stored lists for exact
equality, so the shape `[x0, x1]` survives in two separate terms. -/
theorem C7_counterexample :
    ¬ List.Pairwise (fun a b => a.factors ≠ b.factors)
      (CanonicalTerm.combine_like_terms
        [{ coef := 1, factors := [{ base := 0, exponent := 1 }, { base := 1, exponent := 1 }] },
         { coef := 1, factors := [{ base := 1, exponent := 1 }, { base := 0, exponent := 1 }] },
         { coef := 1, factors := [{ base := 0, exponent := 1 }, { base := 1, exponent := 1 }] }]) := by
  have h : CanonicalTerm.combine_like_terms
      [{ coef := 1, factors := [{ base := 0, exponent := 1 }, { base := 1, exponent := 1 }] },
       { coef := 1, factors := [{ base := 1, exponent := 1 }, { base := 0, exponent := 1 }] },
       { coef := 1, factors := [{ base := 0, exponent := 1 }, { base := 1, exponent := 1 }] }]
      = [{ coef := 1, factors := [{ base := 0, exponent := 1 }, { base := 1, exponent := 1 }] },
         { coef := 1, factors := [{ base := 1, exponent := 1 }, { base := 0, exponent := 1 }] },
         { coef := 1, factors := [{ base := 0, exponent := 1 }, { base := 1, exponent := 1 }] }] := by
    norm_num [CanonicalTerm.combine_like_terms, combineGroups, groupable, stripZero,
      CanonicalTerm.is_constant, termCmp, sortFac, facListCmp, Factor.fcmp,
      List.insertionSort, List.orderedInsert, cmp, cmpUsing, Ordering.then]
  rw [h]
  intro hp
  obtain ⟨hrel, -⟩ := List.pairwise_cons.1 hp
  exact hrel
    { coef := 1, factors := [{ base := 0, exponent := 1 }, { base := 1, exponent := 1 }] }
    (by simp) rfl

/-- Witness for the amended claim C7 at a concrete sorted-factor input. -/
theorem C7_witness :
    List.Pairwise (fun a b => a.factors ≠ b.factors)
      (CanonicalTerm.combine_like_terms
        [{ coef := (2 : Rat), factors := [{ base := 0, exponent := 1 }] },
         { coef := (3 : Rat), factors := [] },
         { coef := (4 : Rat), factors := [{ base := 0, exponent := 1 }] }]) :=
  (C7_combine_canonical _ (by decide)).2.2.2.1

/-- Amended claim C9.  On every input list whose terms carry sorted
factor lists, `combine_like_terms` is idempotent. -/
theorem C9_combine_idempotent (l : List CanonicalTerm)
    (hfac : ∀ t ∈ l, List.Sorted facLe t.factors) :
    CanonicalTerm.combine_like_terms (CanonicalTerm.combine_like_terms l) =
      CanonicalTerm.combine_like_terms l :=
  combine_like_terms_idem l hfac

/-- Counterexample to claim C9 as stated: with unsorted factor lists a
group that cancels to coefficient zero can sit between two terms of the
same stored shape; the first pass keeps those two terms apart (the
cancelled group separates them) while the second pass merges them, so
the two passes disagree. -/
theorem C9_counterexample :
    CanonicalTerm.combine_like_terms
        (CanonicalTerm.combine_like_terms
          [{ coef := 1, factors := [{ base := 0, exponent := 1 }, { base := 1, exponent := 1 }] },
           { coef := 1, factors := [{ base := 1, exponent := 1 }, { base := 0, exponent := 1 }] },
           { coef := -1, factors := [{ base := 1, exponent := 1 }, { base := 0, exponent := 1 }] },
           { coef := 5, factors := [{ base := 0, exponent := 1 }, { base := 1, exponent := 1 }] }])
      ≠
      CanonicalTerm.combine_like_terms
        [{ coef := 1, factors := [{ base := 0, exponent := 1 }, { base := 1, exponent := 1 }] },
         { coef := 1, factors := [{ base := 1, exponent := 1 }, { base := 0, exponent := 1 }] },
         { coef := -1, factors := [{ base := 1, exponent := 1 }, { base := 0, exponent := 1 }] },
         { coef := 5, factors := [{ base := 0, exponent := 1 }, { base := 1, exponent := 1 }] }] := by
  norm_num [CanonicalTerm.combine_like_terms, combineGroups, groupable, stripZero,
    CanonicalTerm.is_constant, termCmp, sortFac, facListCmp, Factor.fcmp,
    List.insertionSort, List.orderedInsert, cmp, cmpUsing, Ordering.then]

/-- Witness for the amended claim C9 at a concrete sorted-factor input. -/
theorem C9_witness :
    CanonicalTerm.combine_like_terms
        (CanonicalTerm.combine_like_terms
          [{ coef := (1 : Rat), factors := [{ base := 0, exponent := 2 }] },
           { coef := (2 : Rat), factors := [] },
           { coef := (3 : Rat), factors := [{ base := 0, exponent := 2 }] }]) =
      CanonicalTerm.combine_like_terms
        [{ coef := (1 : Rat), factors := [{ base := 0, exponent := 2 }] },
         { coef := (2 : Rat), factors := [] },
         { coef := (3 : Rat), factors := [{ base := 0, exponent := 2 }] }] :=
  C9_combine_idempotent _ (by decide)


/-! ## Claim C3: scale invariance of `equivalent` -/

/-- Canonical lowering of the numerator sum `a + b` (variables 0 and 1). -/
theorem c3_lower_ab :
    RationalExpression.from_dim (Expr.add (Expr.var 0) (Expr.var 1))
      = Except.ok (some
          { numer := [{ coef := 1, factors := [{ base := 0, exponent := 1 }] },
                      { coef := 1, factors := [{ base := 1, exponent := 1 }] }],
            denom := [{ coef := 1, factors := [] }] }) := by
  norm_num [Expr.add, RationalExpression.from_dim, RationalExpression.sumFold,
    RationalExpression.new_zero, RationalExpression.new, applySign,
    Expr.positive, CanonicalTerm.sum_terms, CanonicalTerm.multiply_terms,
    CanonicalTerm.multiply, CanonicalTerm.new, CanonicalTerm.with_var,
    CanonicalTerm.is_constant, CanonicalTerm.combine_like_terms,
    combineGroups, groupable, stripZero, termCmp, sortFac, facListCmp, Factor.fcmp,
    mergeFactors, mergeLoop, sortByBase, List.insertionSort, List.orderedInsert,
    cmp, cmpUsing, Ordering.then]

/-- Canonical lowering of the denominator sum `c + d` (variables 2 and 3). -/
theorem c3_lower_cd :
    RationalExpression.from_dim (Expr.add (Expr.var 2) (Expr.var 3))
      = Except.ok (some
          { numer := [{ coef := 1, factors := [{ base := 2, exponent := 1 }] },
                      { coef := 1, factors := [{ base := 3, exponent := 1 }] }],
            denom := [{ coef := 1, factors := [] }] }) := by
  norm_num [Expr.add, RationalExpression.from_dim, RationalExpression.sumFold,
    RationalExpression.new_zero, RationalExpression.new, applySign,
    Expr.positive, CanonicalTerm.sum_terms, CanonicalTerm.multiply_terms,
    CanonicalTerm.multiply, CanonicalTerm.new, CanonicalTerm.with_var,
    CanonicalTerm.is_constant, CanonicalTerm.combine_like_terms,
    combineGroups, groupable, stripZero, termCmp, sortFac, facListCmp, Factor.fcmp,
    mergeFactors, mergeLoop, sortByBase, List.insertionSort, List.orderedInsert,
    cmp, cmpUsing, Ordering.then]


/-- One product-fold step: absorbing the positive constant operand `k`. -/
theorem c3_step1 (k : Nat) (hk : ¬ k = 0) (rest : OperandList) :
    RationalExpression.prodFold RationalExpression.new_one
      (OperandList.cons (Operand.mk Sign.positive (Expr.constant k)) rest)
      = RationalExpression.prodFold
          { numer := [{ coef := (k : Rat), factors := [] }],
            denom := [{ coef := 1, factors := [] }] } rest := by
  norm_num [RationalExpression.from_dim, RationalExpression.prodFold,
    RationalExpression.new_one, applySignInv,
    CanonicalTerm.multiply_terms, CanonicalTerm.terms_divide_by_term,
    CanonicalTerm.multiply, CanonicalTerm.divide, CanonicalTerm.new,
    CanonicalTerm.is_constant, CanonicalTerm.combine_like_terms,
    combineGroups, groupable, stripZero, termCmp, sortFac, facListCmp, Factor.fcmp,
    mergeFactors, mergeLoop, sortByBase, List.insertionSort, List.orderedInsert, hk]

/-- One product-fold step: absorbing the positive sum operand `a + b`. -/
theorem c3_step2 (k : Nat) (hk : ¬ k = 0) (rest : OperandList) :
    RationalExpression.prodFold
      { numer := [{ coef := (k : Rat), factors := [] }],
        denom := [{ coef := 1, factors := [] }] }
      (OperandList.cons (Operand.mk Sign.positive (Expr.add (Expr.var 0) (Expr.var 1))) rest)
      = RationalExpression.prodFold
          { numer := [{ coef := (k : Rat), factors := [{ base := 0, exponent := 1 }] },
                      { coef := (k : Rat), factors := [{ base := 1, exponent := 1 }] }],
            denom := [{ coef := 1, factors := [] }] } rest := by
  norm_num [RationalExpression.prodFold, c3_lower_ab, applySignInv,
    CanonicalTerm.multiply_terms, CanonicalTerm.terms_divide_by_term,
    CanonicalTerm.multiply, CanonicalTerm.divide, CanonicalTerm.new,
    CanonicalTerm.is_constant, CanonicalTerm.combine_like_terms,
    combineGroups, groupable, stripZero, termCmp, sortFac, facListCmp, Factor.fcmp,
    mergeFactors, mergeLoop, sortByBase, List.insertionSort, List.orderedInsert,
    cmp, cmpUsing, Ordering.then, hk]

/-- One product-fold step: dividing through by the negative constant operand `k`. -/
theorem c3_step3 (k : Nat) (hk : ¬ k = 0) (rest : OperandList) :
    RationalExpression.prodFold
      { numer := [{ coef := (k : Rat), factors := [{ base := 0, exponent := 1 }] },
                  { coef := (k : Rat), factors := [{ base := 1, exponent := 1 }] }],
        denom := [{ coef := 1, factors := [] }] }
      (OperandList.cons (Operand.mk Sign.negative (Expr.constant k)) rest)
      = RationalExpression.prodFold
          { numer := [{ coef := 1, factors := [{ base := 0, exponent := 1 }] },
                      { coef := 1, factors := [{ base := 1, exponent := 1 }] }],
            denom := [{ coef := 1, factors := [] }] } rest := by
  have hk' : (k : Rat) ≠ 0 := by exact_mod_cast hk
  norm_num [RationalExpression.from_dim, RationalExpression.prodFold,
    RationalExpression.invert, applySignInv,
    CanonicalTerm.multiply_terms, CanonicalTerm.terms_divide_by_term,
    CanonicalTerm.multiply, CanonicalTerm.divide, CanonicalTerm.new,
    CanonicalTerm.is_constant, CanonicalTerm.combine_like_terms,
    combineGroups, groupable, stripZero, termCmp, sortFac, facListCmp, Factor.fcmp,
    mergeFactors, mergeLoop, sortByBase, List.insertionSort, List.orderedInsert,
    hk, div_self hk']

/-- One product-fold step: cross-multiplying with the negative sum operand `c + d`. -/
theorem c3_step4 (rest : OperandList) :
    RationalExpression.prodFold
      { numer := [{ coef := 1, factors := [{ base := 0, exponent := 1 }] },
                  { coef := 1, factors := [{ base := 1, exponent := 1 }] }],
        denom := [{ coef := 1, factors := [] }] }
      (OperandList.cons (Operand.mk Sign.negative (Expr.add (Expr.var 2) (Expr.var 3))) rest)
      = RationalExpression.prodFold
          { numer := [{ coef := 1, factors := [{ base := 0, exponent := 1 }] },
                      { coef := 1, factors := [{ base := 1, exponent := 1 }] }],
            denom := [{ coef := 1, factors := [{ base := 2, exponent := 1 }] },
                      { coef := 1, factors := [{ base := 3, exponent := 1 }] }] } rest := by
  norm_num [RationalExpression.prodFold, c3_lower_cd,
    RationalExpression.invert, RationalExpression.new, applySignInv,
    CanonicalTerm.multiply_terms, CanonicalTerm.terms_divide_by_term,
    CanonicalTerm.multiply, CanonicalTerm.divide, CanonicalTerm.new,
    CanonicalTerm.is_constant, CanonicalTerm.combine_like_terms,
    combineGroups, groupable, stripZero, termCmp, sortFac, facListCmp, Factor.fcmp,
    mergeFactors, mergeLoop, sortByBase, List.insertionSort, List.orderedInsert,
    cmp, cmpUsing, Ordering.then]


/-- Lowering of `(a+b)/(c+d)` for the concrete variables 0,1,2,3. -/
theorem c3_lower_e1 :
    RationalExpression.from_dim
      (Expr.div (Expr.add (Expr.var 0) (Expr.var 1)) (Expr.add (Expr.var 2) (Expr.var 3)))
      = Except.ok (some
          { numer := [{ coef := 1, factors := [{ base := 0, exponent := 1 }] },
                      { coef := 1, factors := [{ base := 1, exponent := 1 }] }],
            denom := [{ coef := 1, factors := [{ base := 2, exponent := 1 }] },
                      { coef := 1, factors := [{ base := 3, exponent := 1 }] }] }) := by
  show RationalExpression.prodFold RationalExpression.new_one
      (OperandList.cons (Operand.mk Sign.positive (Expr.add (Expr.var 0) (Expr.var 1)))
        (OperandList.cons (Operand.mk Sign.negative (Expr.add (Expr.var 2) (Expr.var 3)))
          OperandList.nil)) = _
  norm_num [RationalExpression.prodFold, c3_lower_ab, c3_lower_cd,
    RationalExpression.new_one, RationalExpression.invert, RationalExpression.new,
    applySignInv,
    CanonicalTerm.multiply_terms, CanonicalTerm.terms_divide_by_term,
    CanonicalTerm.multiply, CanonicalTerm.divide, CanonicalTerm.new,
    CanonicalTerm.is_constant, CanonicalTerm.combine_like_terms,
    combineGroups, groupable, stripZero, termCmp, sortFac, facListCmp, Factor.fcmp,
    mergeFactors, mergeLoop, sortByBase, List.insertionSort, List.orderedInsert,
    cmp, cmpUsing, Ordering.then]

/-- Lowering of `(k*(a+b))/(k*(c+d))` for nonzero `k`: the two factors of
`k` cancel through the divide-by-single-term branches of the product fold,
leaving exactly the lowering of `(a+b)/(c+d)`. -/
theorem c3_lower_e2 (k : Nat) (hk : ¬ k = 0) :
    RationalExpression.from_dim
      (Expr.div (Expr.mul (Expr.constant k) (Expr.add (Expr.var 0) (Expr.var 1)))
                (Expr.mul (Expr.constant k) (Expr.add (Expr.var 2) (Expr.var 3))))
      = Except.ok (some
          { numer := [{ coef := 1, factors := [{ base := 0, exponent := 1 }] },
                      { coef := 1, factors := [{ base := 1, exponent := 1 }] }],
            denom := [{ coef := 1, factors := [{ base := 2, exponent := 1 }] },
                      { coef := 1, factors := [{ base := 3, exponent := 1 }] }] }) := by
  show RationalExpression.prodFold RationalExpression.new_one
      (OperandList.cons (Operand.mk Sign.positive (Expr.constant k))
        (OperandList.cons (Operand.mk Sign.positive (Expr.add (Expr.var 0) (Expr.var 1)))
          (OperandList.cons (Operand.mk Sign.negative (Expr.constant k))
            (OperandList.cons (Operand.mk Sign.negative (Expr.add (Expr.var 2) (Expr.var 3)))
              OperandList.nil)))) = _
  rw [c3_step1 k hk, c3_step2 k hk, c3_step3 k hk, c3_step4,
    RationalExpression.prodFold]

/-- Claim C3.  Scale invariance: for every nonzero natural constant `k`
and the four distinct variables a, b, c, d (realised as names 0, 1, 2, 3),
`equivalent((a+b)/(c+d), (k*(a+b))/(k*(c+d)))` returns `Some(true)` — the
numerator of the lowered difference cancels completely. -/
theorem C3_scale_invariance (k : Nat) (hk : ¬ k = 0) :
    Expr.equivalent
      (Expr.div (Expr.add (Expr.var 0) (Expr.var 1)) (Expr.add (Expr.var 2) (Expr.var 3)))
      (Expr.div (Expr.mul (Expr.constant k) (Expr.add (Expr.var 0) (Expr.var 1)))
                (Expr.mul (Expr.constant k) (Expr.add (Expr.var 2) (Expr.var 3))))
      = Except.ok (some true) := by
  rw [Expr.equivalent]
  show (match RationalExpression.sumFold RationalExpression.new_zero
      (OperandList.cons
        (Operand.mk Sign.positive
          (Expr.div (Expr.add (Expr.var 0) (Expr.var 1)) (Expr.add (Expr.var 2) (Expr.var 3))))
        (OperandList.cons
          (Operand.mk Sign.negative
            (Expr.div (Expr.mul (Expr.constant k) (Expr.add (Expr.var 0) (Expr.var 1)))
                      (Expr.mul (Expr.constant k) (Expr.add (Expr.var 2) (Expr.var 3)))))
          OperandList.nil)) with
    | Except.error msg => Except.error msg
    | Except.ok none => Except.ok none
    | Except.ok (some diffRational) =>
      if !(classifyFlags diffRational.numer).1 && !(classifyFlags diffRational.numer).2 then
        Except.ok (some true)
      else if (classifyFlags diffRational.numer).1 && !(classifyFlags diffRational.numer).2 then
        Except.ok (some false)
      else Except.ok none) = Except.ok (some true)
  norm_num [RationalExpression.sumFold, c3_lower_e1, c3_lower_e2 k hk,
    RationalExpression.new_zero, RationalExpression.new, RationalExpression.negR,
    applySign, CanonicalTerm.negT,
    CanonicalTerm.sum_terms, CanonicalTerm.multiply_terms,
    CanonicalTerm.multiply, CanonicalTerm.new,
    CanonicalTerm.is_constant, CanonicalTerm.combine_like_terms,
    combineGroups, groupable, stripZero, termCmp, sortFac, facListCmp, Factor.fcmp,
    mergeFactors, mergeLoop, sortByBase, List.insertionSort, List.orderedInsert,
    cmp, cmpUsing, Ordering.then, classifyFlags, classifyLoop]


/-- Witness for claim C3 at `k = 2`. -/
theorem C3_witness :
    ¬ ((2 : Nat) = 0) ∧
    Expr.equivalent
      (Expr.div (Expr.add (Expr.var 0) (Expr.var 1)) (Expr.add (Expr.var 2) (Expr.var 3)))
      (Expr.div (Expr.mul (Expr.constant 2) (Expr.add (Expr.var 0) (Expr.var 1)))
                (Expr.mul (Expr.constant 2) (Expr.add (Expr.var 2) (Expr.var 3))))
      = Except.ok (some true) :=
  ⟨by decide, C3_scale_invariance 2 (by decide)⟩


/-! # Claim C8: commutativity under the equivalence decision procedure -/

/-! ## Monomial semantics of factor lists

A factor list denotes an exponent vector (a finitely supported function
from variable names to integer exponents).  This is the semantic domain
against which the factor-merging code of `multiply`/`divide` is checked. -/

/-- The exponent vector denoted by a factor list. -/
noncomputable def toMon (fs : List Factor) : Nat →₀ Int :=
  (fs.map fun f => Finsupp.single f.base f.exponent).sum

theorem toMon_nil : toMon [] = 0 := rfl

theorem toMon_cons (f : Factor) (fs : List Factor) :
    toMon (f :: fs) = Finsupp.single f.base f.exponent + toMon fs := by
  simp [toMon]

theorem toMon_append (l1 l2 : List Factor) :
    toMon (l1 ++ l2) = toMon l1 + toMon l2 := by
  simp [toMon]

theorem toMon_perm {l1 l2 : List Factor} (h : l1.Perm l2) : toMon l1 = toMon l2 :=
  (h.map _).sum_eq

/-- Zero-exponent factors do not contribute to the monomial. -/
theorem toMon_filter (fs : List Factor) :
    toMon (fs.filter fun f => f.exponent ≠ 0) = toMon fs := by
  induction fs with
  | nil => rfl
  | cons f fs ih =>
    by_cases h : f.exponent = 0
    · have hc : (decide (f.exponent ≠ 0)) = false := by simp [h]
      rw [List.filter_cons, hc, if_neg Bool.false_ne_true, ih, toMon_cons, h,
        Finsupp.single_zero, zero_add]
    · have hc : (decide (f.exponent ≠ 0)) = true := by simp [h]
      rw [List.filter_cons, hc, if_pos rfl, toMon_cons, toMon_cons, ih]

/-- Negating every exponent negates the monomial. -/
theorem toMon_negExp (fs : List Factor) :
    toMon (fs.map fun f => { f with exponent := -f.exponent }) = - toMon fs := by
  induction fs with
  | nil => simp [toMon_nil, toMon]
  | cons f fs ih =>
    simp only [List.map_cons, toMon_cons, Finsupp.single_neg, ih]
    abel

/-- The merge loop preserves the denoted monomial (accumulator included). -/
theorem toMon_mergeLoop_some :
    ∀ (fs : List Factor) (prev : Factor),
      toMon (mergeLoop (some prev) fs)
        = Finsupp.single prev.base prev.exponent + toMon fs
  | [], prev => by
    by_cases h : prev.exponent = 0
    · simp [mergeLoop, h, toMon_nil, Finsupp.single_zero]
    · simp [mergeLoop, h, toMon_cons, toMon_nil]
  | f :: fs, prev => by
    rw [mergeLoop]
    by_cases h : prev.base = f.base
    · rw [if_pos h, toMon_mergeLoop_some fs _, toMon_cons]
      simp [Finsupp.single_add, h, add_assoc]
    · rw [if_neg h, toMon_append, toMon_mergeLoop_some fs f, toMon_cons]
      by_cases h0 : prev.exponent = 0
      · simp [h0, toMon_nil, Finsupp.single_zero, toMon_cons]
      · simp [h0, toMon_cons, toMon_nil, add_assoc]

theorem toMon_mergeLoop_none (fs : List Factor) :
    toMon (mergeLoop none fs) = toMon fs := by
  cases fs with
  | nil => rfl
  | cons f fs =>
    rw [show mergeLoop none (f :: fs) = mergeLoop (some f) fs from rfl,
      toMon_mergeLoop_some fs f, toMon_cons]

/-- Sorting and merging a factor list preserves its monomial. -/
theorem toMon_mergeFactors (fs : List Factor) : toMon (mergeFactors fs) = toMon fs := by
  rw [mergeFactors, toMon_mergeLoop_none]
  exact toMon_perm (List.perm_insertionSort facBaseLe fs)

/-- Canonical factor lists: strictly increasing bases and no zero
exponents.  `mergeFactors` always produces such a list. -/
def FacCanon (fs : List Factor) : Prop :=
  List.Pairwise (fun f g => f.base < g.base) fs ∧ ∀ f ∈ fs, f.exponent ≠ 0

theorem facBaseLe_iff {f g : Factor} : facBaseLe f g ↔ f.base ≤ g.base :=
  cmp_ne_gt_iff_le

theorem mergeLoop_canon :
    ∀ (fs : List Factor) (prev : Factor),
      List.Sorted facBaseLe fs → (∀ f ∈ fs, prev.base ≤ f.base) →
      (∀ g ∈ mergeLoop (some prev) fs, prev.base ≤ g.base)
      ∧ List.Pairwise (fun f g => f.base < g.base) (mergeLoop (some prev) fs)
      ∧ (∀ g ∈ mergeLoop (some prev) fs, g.exponent ≠ 0)
  | [], prev => by
    intro hs hge
    by_cases h : prev.exponent = 0
    · simp [mergeLoop, h]
    · simp [mergeLoop, h]
  | f :: fs, prev => by
    intro hs hge
    obtain ⟨hf, hs2⟩ := List.sorted_cons.1 hs
    rw [mergeLoop]
    by_cases h : prev.base = f.base
    · rw [if_pos h]
      have hge2 : ∀ g ∈ fs, ({ prev with exponent := prev.exponent + f.exponent } :
          Factor).base ≤ g.base := by
        intro g hg
        exact h ▸ (facBaseLe_iff.1 (hf g hg))
      exact mergeLoop_canon fs _ hs2 hge2
    · rw [if_neg h]
      have hlt : prev.base < f.base :=
        lt_of_le_of_ne (hge f (List.mem_cons_self f fs)) h
      have hge2 : ∀ g ∈ fs, f.base ≤ g.base := fun g hg => facBaseLe_iff.1 (hf g hg)
      obtain ⟨ih1, ih2, ih3⟩ := mergeLoop_canon fs f hs2 hge2
      by_cases h0 : prev.exponent = 0
      · simp only [h0, ne_eq, not_true_eq_false, if_false, List.nil_append]
        exact ⟨fun g hg => le_of_lt (lt_of_lt_of_le hlt (ih1 g hg)), ih2, ih3⟩
      · simp only [h0, ne_eq, not_false_eq_true, if_true, List.singleton_append]
        refine ⟨?_, ?_, ?_⟩
        · intro g hg
          rcases List.mem_cons.1 hg with rfl | hg
          · exact le_refl _
          · exact le_of_lt (lt_of_lt_of_le hlt (ih1 g hg))
        · exact List.pairwise_cons.2 ⟨fun g hg => lt_of_lt_of_le hlt (ih1 g hg), ih2⟩
        · intro g hg
          rcases List.mem_cons.1 hg with rfl | hg
          · exact h0
          · exact ih3 g hg

/-- `mergeFactors` produces a canonical factor list. -/
theorem mergeFactors_canon (fs : List Factor) : FacCanon (mergeFactors fs) := by
  rw [mergeFactors]
  have hs : List.Sorted facBaseLe (sortByBase fs) := List.sorted_insertionSort _ fs
  rcases he : sortByBase fs with _ | ⟨f, fs2⟩
  · exact ⟨List.Pairwise.nil, by simp [mergeLoop]⟩
  · rw [he] at hs
    obtain ⟨hf, hs2⟩ := List.sorted_cons.1 hs
    rw [show mergeLoop none (f :: fs2) = mergeLoop (some f) fs2 from rfl]
    obtain ⟨_, h2, h3⟩ :=
      mergeLoop_canon fs2 f hs2 (fun g hg => facBaseLe_iff.1 (hf g hg))
    exact ⟨h2, h3⟩

/-- Evaluating a monomial away from all the bases of the list gives 0. -/
theorem toMon_apply_notin (fs : List Factor) (b : Nat) (hb : ∀ f ∈ fs, f.base ≠ b) :
    toMon fs b = 0 := by
  induction fs with
  | nil => rfl
  | cons f fs ih =>
    rw [toMon_cons, Finsupp.add_apply, Finsupp.single_apply,
      if_neg (hb f (List.mem_cons_self f fs)),
      ih (fun g hg => hb g (List.mem_cons_of_mem f hg)), add_zero]

theorem toMon_apply_head (f : Factor) (fs : List Factor)
    (h : ∀ g ∈ fs, g.base ≠ f.base) : toMon (f :: fs) f.base = f.exponent := by
  rw [toMon_cons, Finsupp.add_apply, Finsupp.single_apply, if_pos rfl,
    toMon_apply_notin fs f.base h, add_zero]

/-- The head exponent of a canonical list is recovered by evaluation. -/
theorem toMon_head_of_canon {f : Factor} {fs : List Factor}
    (h : FacCanon (f :: fs)) : toMon (f :: fs) f.base = f.exponent :=
  toMon_apply_head f fs fun u hu => ne_of_gt ((List.pairwise_cons.1 h.1).1 u hu)

theorem FacCanon_tail {f : Factor} {fs : List Factor} (h : FacCanon (f :: fs)) :
    FacCanon fs :=
  ⟨(List.pairwise_cons.1 h.1).2, fun u hu => h.2 u (List.mem_cons_of_mem f hu)⟩

/-- On canonical factor lists the monomial map is injective. -/
theorem toMon_inj : ∀ (fs gs : List Factor),
    FacCanon fs → FacCanon gs → toMon fs = toMon gs → fs = gs
  | [], [], _, _, _ => rfl
  | [], g :: gs, _, hg, h => by
    exfalso
    refine hg.2 g (List.mem_cons_self g gs) ?_
    rw [← toMon_head_of_canon hg, ← h]
    rfl
  | f :: fs, [], hf, _, h => by
    exfalso
    refine hf.2 f (List.mem_cons_self f fs) ?_
    rw [← toMon_head_of_canon hf, h]
    rfl
  | f :: fs, g :: gs, hf, hg, h => by
    rcases lt_trichotomy f.base g.base with hlt | heq | hgt
    · exfalso
      refine hf.2 f (List.mem_cons_self f fs) ?_
      rw [← toMon_head_of_canon hf, h]
      refine toMon_apply_notin _ _ ?_
      intro u hu
      rcases List.mem_cons.1 hu with rfl | hu
      · exact ne_of_gt hlt
      · exact ne_of_gt (lt_trans hlt ((List.pairwise_cons.1 hg.1).1 u hu))
    · have hexp : f.exponent = g.exponent := by
        rw [← toMon_head_of_canon hf, h, heq, toMon_head_of_canon hg]
      have hfg : f = g := by
        cases f
        cases g
        simp only at heq hexp
        simp [heq, hexp]
      have htails : toMon fs = toMon gs := by
        have h2 := h
        rw [toMon_cons, toMon_cons, hfg] at h2
        exact add_left_cancel h2
      rw [hfg, toMon_inj fs gs (FacCanon_tail hf) (FacCanon_tail hg) htails]
    · exfalso
      refine hg.2 g (List.mem_cons_self g gs) ?_
      rw [← toMon_head_of_canon hg, ← h]
      refine toMon_apply_notin _ _ ?_
      intro u hu
      rcases List.mem_cons.1 hu with rfl | hu
      · exact ne_of_gt hgt
      · exact ne_of_gt (lt_trans hgt ((List.pairwise_cons.1 hf.1).1 u hu))


/-! ## Polynomial semantics of canonical terms

A canonical term denotes a monomial with rational coefficient in the
algebra of rational-coefficient polynomials with integer (Laurent)
exponents; a term list denotes the sum of its terms.  The term algebra
(`multiply`, `divide`, `combine_like_terms`, …) is checked against this
semantics. -/

/-- The coefficient algebra: polynomials over ℚ whose exponent vectors
are finitely supported integer-valued maps on variable names. -/
abbrev PolyA : Type := AddMonoidAlgebra ℚ (Nat →₀ ℤ)

instance : IsDomain PolyA := NoZeroDivisors.to_isDomain _

/-- Semantics of one canonical term. -/
noncomputable def semT (t : CanonicalTerm) : PolyA :=
  AddMonoidAlgebra.single (toMon t.factors) t.coef

/-- Semantics of a term list (the denoted polynomial). -/
noncomputable def semL (l : List CanonicalTerm) : PolyA := (l.map semT).sum

theorem semL_nil : semL [] = 0 := rfl

theorem semL_cons (t : CanonicalTerm) (l : List CanonicalTerm) :
    semL (t :: l) = semT t + semL l := by
  simp [semL]

theorem semL_append (l1 l2 : List CanonicalTerm) :
    semL (l1 ++ l2) = semL l1 + semL l2 := by
  simp [semL]

theorem semL_perm {l1 l2 : List CanonicalTerm} (h : l1.Perm l2) : semL l1 = semL l2 :=
  (h.map _).sum_eq

theorem semL_singleton (t : CanonicalTerm) : semL [t] = semT t := by
  rw [semL_cons, semL_nil, add_zero]

theorem semT_coef_zero {t : CanonicalTerm} (h : t.coef = 0) : semT t = 0 := by
  rw [semT, h]
  exact Finsupp.single_zero _

theorem semT_ne_zero {t : CanonicalTerm} (h : t.coef ≠ 0) : semT t ≠ 0 := by
  intro hc
  exact h (Finsupp.single_eq_zero.mp hc)

theorem multiply_factors (t1 t2 : CanonicalTerm) :
    (t1.multiply t2).factors = mergeFactors (t1.factors ++ t2.factors) := rfl

theorem multiply_coef (t1 t2 : CanonicalTerm) :
    (t1.multiply t2).coef = t1.coef * t2.coef := rfl

theorem divide_factors (t d : CanonicalTerm) :
    (t.divide d).factors
      = mergeFactors (t.factors ++ d.factors.map fun f =>
          { f with exponent := -f.exponent }) := rfl

theorem divide_coef (t d : CanonicalTerm) :
    (t.divide d).coef = t.coef / d.coef := rfl

/-- `multiply` is a semantic product. -/
theorem semT_multiply (t1 t2 : CanonicalTerm) :
    semT (t1.multiply t2) = semT t1 * semT t2 := by
  rw [semT, semT, semT, multiply_factors, multiply_coef, toMon_mergeFactors,
    toMon_append, AddMonoidAlgebra.single_mul_single]

theorem semT_negT (t : CanonicalTerm) : semT (CanonicalTerm.negT t) = - semT t := by
  rw [semT, semT]
  exact Finsupp.single_neg _ _

/-- `divide` is a semantic division when the divisor coefficient is
nonzero: multiplying back by the divisor recovers the dividend. -/
theorem semT_divide_mul (t d : CanonicalTerm) (hd : d.coef ≠ 0) :
    semT (t.divide d) * semT d = semT t := by
  rw [semT, semT, semT, divide_factors, divide_coef, toMon_mergeFactors,
    toMon_append, toMon_negExp, AddMonoidAlgebra.single_mul_single,
    div_mul_cancel₀ _ hd, add_assoc, neg_add_cancel, add_zero]

theorem multiply_FacCanon (t1 t2 : CanonicalTerm) :
    FacCanon (t1.multiply t2).factors :=
  mergeFactors_canon _

theorem divide_FacCanon (t d : CanonicalTerm) : FacCanon (t.divide d).factors :=
  mergeFactors_canon _

/-- Semantics of the optional accumulator of the grouping loop. -/
noncomputable def optSemT : Option CanonicalTerm → PolyA
  | none => 0
  | some t => semT t

/-- A term reported constant by `is_constant` denotes monomial 0. -/
theorem toMon_allzero : ∀ (fs : List Factor), (∀ f ∈ fs, f.exponent = 0) →
    toMon fs = 0
  | [], _ => rfl
  | f :: fs, h => by
    rw [toMon_cons, h f (List.mem_cons_self f fs), Finsupp.single_zero,
      toMon_allzero fs (fun g hg => h g (List.mem_cons_of_mem f hg)), add_zero]

theorem is_constant_toMon {t : CanonicalTerm} (h : t.is_constant = true) :
    toMon t.factors = 0 := by
  rw [CanonicalTerm.is_constant, Bool.or_eq_true] at h
  rcases h with h | h
  · rw [List.isEmpty_iff.mp h]
    rfl
  · refine toMon_allzero _ ?_
    intro f hf
    simpa using (List.all_eq_true.mp h f hf)

/-- Groupable terms denote the same monomial. -/
theorem groupable_toMon {a b : CanonicalTerm} (h : groupable a b) :
    toMon a.factors = toMon b.factors := by
  rcases h with h | ⟨h1, h2⟩
  · rw [h]
  · rw [is_constant_toMon h1, is_constant_toMon h2]

/-- The grouping loop preserves the denoted polynomial. -/
theorem combineGroups_sem : ∀ (o : Option CanonicalTerm) (l : List CanonicalTerm),
    semL (combineGroups o l) = optSemT o + semL l
  | none, [] => by simp [combineGroups, semL_nil, optSemT]
  | some prev, [] => by
    by_cases h : prev.coef = 0
    · have hc : ¬ prev.coef ≠ 0 := by simpa using h
      rw [combineGroups, if_neg hc, semL_nil, optSemT, semT_coef_zero h, add_zero]
    · rw [combineGroups, if_pos h, semL_singleton, optSemT, semL_nil, add_zero]
  | none, t :: ts => by
    rw [show combineGroups none (t :: ts) = combineGroups (some t) ts from rfl,
      combineGroups_sem (some t) ts, semL_cons]
    rw [optSemT, optSemT, zero_add]
  | some prev, t :: ts => by
    by_cases hg : groupable prev t
    · rw [combineGroups, if_pos hg, combineGroups_sem _ ts]
      have hm : semT { prev with coef := prev.coef + t.coef } = semT prev + semT t := by
        rw [semT, semT, semT]
        show AddMonoidAlgebra.single (toMon prev.factors) (prev.coef + t.coef) = _
        rw [← groupable_toMon hg]
        exact Finsupp.single_add _ _ _
      rw [optSemT, optSemT, hm, semL_cons, add_assoc]
    · rw [combineGroups, if_neg hg, semL_append, combineGroups_sem (some t) ts]
      have hemit : semL (if prev.coef ≠ 0 then [prev] else []) = semT prev := by
        by_cases h0 : prev.coef = 0
        · have hc : ¬ prev.coef ≠ 0 := by simpa using h0
          rw [if_neg hc, semL_nil, semT_coef_zero h0]
        · rw [if_pos h0, semL_singleton]
      rw [hemit, optSemT, optSemT, semL_cons]

theorem semT_stripZero (t : CanonicalTerm) : semT (stripZero t) = semT t := by
  rw [semT, semT]
  show AddMonoidAlgebra.single (toMon (t.factors.filter fun f => f.exponent ≠ 0)) t.coef = _
  rw [toMon_filter]

theorem semL_map_stripZero (l : List CanonicalTerm) :
    semL (l.map stripZero) = semL l := by
  induction l with
  | nil => rfl
  | cons t ts ih => rw [List.map_cons, semL_cons, semL_cons, semT_stripZero, ih]

/-- `combine_like_terms` preserves the denoted polynomial. -/
theorem combine_sem (l : List CanonicalTerm) :
    semL (CanonicalTerm.combine_like_terms l) = semL l := by
  rw [CanonicalTerm.combine_like_terms]
  cases he : List.insertionSort termLe (l.map stripZero) with
  | nil =>
    have hp := List.perm_insertionSort termLe (l.map stripZero)
    rw [he] at hp
    rw [combineGroups, semL_nil, ← semL_map_stripZero, ← semL_perm hp, semL_nil]
  | cons t ts =>
    rw [show combineGroups none (t :: ts) = combineGroups (some t) ts from rfl,
      combineGroups_sem (some t) ts, optSemT, ← semL_cons, ← he,
      semL_perm (List.perm_insertionSort termLe (l.map stripZero)),
      semL_map_stripZero]

theorem semL_map_negT (l : List CanonicalTerm) :
    semL (l.map CanonicalTerm.negT) = - semL l := by
  induction l with
  | nil => simp [semL_nil]
  | cons t ts ih =>
    rw [List.map_cons, semL_cons, semL_cons, semT_negT, ih, neg_add]

/-- `sum_terms` is a semantic sum. -/
theorem sum_terms_sem (x y : List CanonicalTerm) :
    semL (CanonicalTerm.sum_terms x y) = semL x + semL y := by
  rw [CanonicalTerm.sum_terms, combine_sem, semL_append]

theorem semL_mul_row (t1 : CanonicalTerm) (y : List CanonicalTerm) :
    semL (y.map fun t2 => t1.multiply t2) = semT t1 * semL y := by
  induction y with
  | nil => simp [semL_nil]
  | cons u us ih =>
    rw [List.map_cons, semL_cons, semL_cons, semT_multiply, ih, mul_add]

/-- `multiply_terms` is a semantic product. -/
theorem multiply_terms_sem (x y : List CanonicalTerm) :
    semL (CanonicalTerm.multiply_terms x y) = semL x * semL y := by
  rw [CanonicalTerm.multiply_terms, combine_sem]
  induction x with
  | nil => simp [semL_nil]
  | cons t ts ih =>
    rw [List.flatMap_cons, semL_append, semL_mul_row, ih, semL_cons, add_mul]

/-- `terms_divide_by_term` against a nonzero-coefficient divisor is a
semantic division. -/
theorem terms_divide_sem (x : List CanonicalTerm) (d : CanonicalTerm)
    (hd : d.coef ≠ 0) :
    semL (CanonicalTerm.terms_divide_by_term x d) * semT d = semL x := by
  rw [CanonicalTerm.terms_divide_by_term, combine_sem]
  induction x with
  | nil => simp [semL_nil]
  | cons t ts ih =>
    rw [List.map_cons, semL_cons, semL_cons, add_mul, ih, semT_divide_mul t d hd]

/-- The grouping loop collapses a list of zero-coefficient terms to
nothing. -/
theorem combineGroups_allzero : ∀ (o : Option CanonicalTerm) (l : List CanonicalTerm),
    (∀ t, o = some t → t.coef = 0) → (∀ t ∈ l, t.coef = 0) →
    combineGroups o l = []
  | none, [], _, _ => rfl
  | some prev, [], ho, _ => by
    have hc : ¬ prev.coef ≠ 0 := by simpa using ho prev rfl
    rw [combineGroups, if_neg hc]
  | none, t :: ts, _, hl => by
    rw [show combineGroups none (t :: ts) = combineGroups (some t) ts from rfl]
    exact combineGroups_allzero (some t) ts
      (fun u hu => (Option.some_inj.mp hu) ▸ hl t (List.mem_cons_self t ts))
      (fun u hu => hl u (List.mem_cons_of_mem t hu))
  | some prev, t :: ts, ho, hl => by
    by_cases hg : groupable prev t
    · rw [combineGroups, if_pos hg]
      refine combineGroups_allzero _ ts ?_ (fun u hu => hl u (List.mem_cons_of_mem t hu))
      intro u hu
      rw [← Option.some_inj.mp hu]
      show prev.coef + t.coef = 0
      rw [ho prev rfl, hl t (List.mem_cons_self t ts), add_zero]
    · have hc : ¬ prev.coef ≠ 0 := by simpa using ho prev rfl
      rw [combineGroups, if_neg hg, if_neg hc, List.nil_append]
      exact combineGroups_allzero (some t) ts
        (fun u hu => (Option.some_inj.mp hu) ▸ hl t (List.mem_cons_self t ts))
        (fun u hu => hl u (List.mem_cons_of_mem t hu))

/-- `combine_like_terms` of a list of zero-coefficient terms is empty. -/
theorem combine_allzero (l : List CanonicalTerm) (h : ∀ t ∈ l, t.coef = 0) :
    CanonicalTerm.combine_like_terms l = [] := by
  rw [CanonicalTerm.combine_like_terms]
  refine combineGroups_allzero none _ (by intro t ht; cases ht) ?_
  intro t ht
  have := (List.perm_insertionSort termLe (l.map stripZero)).mem_iff.1 ht
  obtain ⟨u, hu, rfl⟩ := List.mem_map.1 this
  show u.coef = 0
  exact h u hu

/-- Dividing by a zero-coefficient term wipes out the whole list (the
total `Rat` division yields coefficient 0 everywhere and the combine
step elides all zero terms). -/
theorem terms_divide_zero (x : List CanonicalTerm) (d : CanonicalTerm)
    (hd : d.coef = 0) :
    CanonicalTerm.terms_divide_by_term x d = [] := by
  rw [CanonicalTerm.terms_divide_by_term]
  refine combine_allzero _ ?_
  intro t ht
  obtain ⟨u, _, rfl⟩ := List.mem_map.1 ht
  show u.coef / d.coef = 0
  rw [hd, div_zero]

/-- A fully canonical term list: canonical factor lists, nonzero
coefficients, pairwise distinct shapes. -/
def CanonL (l : List CanonicalTerm) : Prop :=
  (∀ t ∈ l, FacCanon t.factors ∧ t.coef ≠ 0) ∧
  List.Pairwise (fun s t => s.factors ≠ t.factors) l

theorem semL_apply_notin (l : List CanonicalTerm) (m : Nat →₀ Int)
    (h : ∀ t ∈ l, toMon t.factors ≠ m) : semL l m = 0 := by
  induction l with
  | nil => rfl
  | cons t ts ih =>
    rw [semL_cons, Finsupp.add_apply, semT, Finsupp.single_apply,
      if_neg (h t (List.mem_cons_self t ts)),
      ih (fun u hu => h u (List.mem_cons_of_mem t hu)), add_zero]

/-- A nonempty fully canonical term list denotes a nonzero polynomial. -/
theorem semL_ne_zero : ∀ (l : List CanonicalTerm), CanonL l → l ≠ [] → semL l ≠ 0
  | [], _, hne => absurd rfl hne
  | t :: ts, hc, _ => by
    intro hzero
    have hmem := hc.1 t (List.mem_cons_self t ts)
    have hrest : ∀ u ∈ ts, toMon u.factors ≠ toMon t.factors := by
      intro u hu hmon
      have hfac : u.factors = t.factors :=
        toMon_inj _ _ (hc.1 u (List.mem_cons_of_mem t hu)).1 hmem.1 hmon
      exact ((List.pairwise_cons.1 hc.2).1 u hu) hfac.symm
    have happ : semL (t :: ts) (toMon t.factors) = t.coef := by
      rw [semL_cons, Finsupp.add_apply, semT, Finsupp.single_apply, if_pos rfl,
        semL_apply_notin ts _ hrest, add_zero]
    rw [hzero] at happ
    exact hmem.2 happ.symm

/-- `FacCanon` factor lists are sorted for the full factor order. -/
theorem FacCanon_sorted {fs : List Factor} (h : FacCanon fs) :
    List.Sorted facLe fs := by
  refine h.1.imp ?_
  intro f g hfg
  show Factor.fcmp f g ≠ Ordering.gt
  rw [Factor.fcmp, (cmp_eq_lt_iff _ _).2 hfg]
  simp [Ordering.then]

/-- On inputs with canonical factor lists, `combine_like_terms` yields a
fully canonical list whose shapes are inherited from the input. -/
theorem combine_CanonL (l : List CanonicalTerm)
    (h : ∀ t ∈ l, FacCanon t.factors) :
    CanonL (CanonicalTerm.combine_like_terms l) ∧
    (∀ t ∈ CanonicalTerm.combine_like_terms l, FacCanon t.factors) := by
  have hfac : ∀ t ∈ l, List.Sorted facLe t.factors := fun t ht =>
    FacCanon_sorted (h t ht)
  have hsorted : List.Sorted termLe (List.insertionSort termLe (l.map stripZero)) :=
    List.sorted_insertionSort termLe (l.map stripZero)
  have hok : ∀ t ∈ List.insertionSort termLe (l.map stripZero), TermOK t := by
    intro t ht
    have := (List.perm_insertionSort termLe (l.map stripZero)).mem_iff.1 ht
    obtain ⟨u, hu, rfl⟩ := List.mem_map.1 this
    exact stripZero_TermOK (hfac u hu)
  obtain ⟨r1, r2, r3, r4⟩ := combineGroups_none_props _ hsorted hok
  have hshape : ∀ t ∈ CanonicalTerm.combine_like_terms l, FacCanon t.factors := by
    intro t ht
    obtain ⟨u, hu, hf⟩ := r4 t ht
    have := (List.perm_insertionSort termLe (l.map stripZero)).mem_iff.1 hu
    obtain ⟨v, hv, rfl⟩ := List.mem_map.1 this
    have hsz : stripZero v = v := stripZero_eq_self (h v hv).2
    rw [hf, hsz]
    exact h v hv
  refine ⟨⟨?_, ?_⟩, hshape⟩
  · intro t ht
    exact ⟨hshape t ht, r3 t ht⟩
  · refine r2.imp ?_
    intro a b hab hfab
    exact hab (Or.inl hfab)

/-- A nonempty `combine_like_terms` output certifies a nonzero denoted
polynomial of the input (on canonical factor lists). -/
theorem combine_nonempty_sem (l : List CanonicalTerm)
    (h : ∀ t ∈ l, FacCanon t.factors)
    (hne : CanonicalTerm.combine_like_terms l ≠ []) : semL l ≠ 0 := by
  rw [← combine_sem]
  exact semL_ne_zero _ (combine_CanonL l h).1 hne

/-- Conversely a zero denoted polynomial forces an empty combine. -/
theorem combine_eq_nil_of_sem (l : List CanonicalTerm)
    (h : ∀ t ∈ l, FacCanon t.factors) (hz : semL l = 0) :
    CanonicalTerm.combine_like_terms l = [] := by
  by_contra hne
  exact combine_nonempty_sem l h hne hz


/-! ## Fraction-field semantics of rational expressions -/

/-- The fraction field of the polynomial algebra. -/
abbrev KF : Type := FractionRing PolyA

/-- The canonical embedding of polynomials into the fraction field. -/
noncomputable def mapK (x : PolyA) : KF := algebraMap PolyA KF x

theorem mapK_inj {x y : PolyA} (h : mapK x = mapK y) : x = y :=
  IsFractionRing.injective PolyA KF h

theorem mapK_ne_zero {x : PolyA} (h : x ≠ 0) : mapK x ≠ 0 := by
  intro hc
  exact h ((map_eq_zero_iff _ (IsFractionRing.injective PolyA KF)).mp hc)

theorem mapK_eq_zero {x : PolyA} (h : mapK x = 0) : x = 0 :=
  (map_eq_zero_iff _ (IsFractionRing.injective PolyA KF)).mp h

theorem mapK_mul (x y : PolyA) : mapK (x * y) = mapK x * mapK y := map_mul _ x y

theorem mapK_add (x y : PolyA) : mapK (x + y) = mapK x + mapK y := map_add _ x y

theorem mapK_neg (x : PolyA) : mapK (-x) = - mapK x := map_neg _ x

/-- The fraction denoted by a `RationalExpression`. -/
noncomputable def ratSemK (r : RationalExpression) : KF :=
  mapK (semL r.numer) / mapK (semL r.denom)

theorem negR_numer (r : RationalExpression) :
    (RationalExpression.negR r).numer = r.numer.map CanonicalTerm.negT := rfl

theorem negR_denom (r : RationalExpression) :
    (RationalExpression.negR r).denom = r.denom := rfl

theorem ratSemK_negR (r : RationalExpression) :
    ratSemK (RationalExpression.negR r) = - ratSemK r := by
  rw [ratSemK, ratSemK, negR_numer, negR_denom, semL_map_negT, mapK_neg, neg_div]

theorem applySign_positive (r : RationalExpression) :
    applySign Sign.positive r = r := rfl

theorem applySign_negative (r : RationalExpression) :
    applySign Sign.negative r = RationalExpression.negR r := rfl

theorem applySign_denom (ty : Sign) (r : RationalExpression) :
    (applySign ty r).denom = r.denom := by
  cases ty <;> rfl

/-! ## Semantics of operand lists -/

/-- Fraction denoted by one `Sum` operand (0 when lowering fails). -/
noncomputable def opSemS : Operand → KF
  | Operand.mk ty e =>
    match RationalExpression.from_dim e with
    | Except.ok (some r) =>
      match ty with
      | Sign.positive => ratSemK r
      | Sign.negative => - ratSemK r
    | _ => 0

/-- Sum of the fractions denoted by a `Sum` operand list. -/
noncomputable def opsSemS : OperandList → KF
  | OperandList.nil => 0
  | OperandList.cons op rest => opSemS op + opsSemS rest

/-- Fraction denoted by one `Product` operand (inverted when negative). -/
noncomputable def opSemP : Operand → KF
  | Operand.mk ty e =>
    match RationalExpression.from_dim e with
    | Except.ok (some r) => ratSemK (applySignInv ty r)
    | _ => 0

/-- Product of the fractions denoted by a `Product` operand list. -/
noncomputable def opsSemP : OperandList → KF
  | OperandList.nil => 1
  | OperandList.cons op rest => opSemP op * opsSemP rest

/-- Success conditions for one `Sum` operand of the lowering fold. -/
def OpOKS : Operand → Prop
  | Operand.mk _ e =>
    ∃ r, RationalExpression.from_dim e = Except.ok (some r) ∧ semL r.denom ≠ 0

/-- Success conditions for a `Sum` operand list. -/
def OpsOKS : OperandList → Prop
  | OperandList.nil => True
  | OperandList.cons op rest => OpOKS op ∧ OpsOKS rest

/-- Success conditions for one `Product` operand of the lowering fold. -/
def OpOKP : Operand → Prop
  | Operand.mk ty e =>
    ∃ r, RationalExpression.from_dim e = Except.ok (some r) ∧
      ((applySignInv ty r).denom.length > 1 → semL (applySignInv ty r).denom ≠ 0) ∧
      (¬ (applySignInv ty r).denom.length > 1 → (applySignInv ty r).denom ≠ [])

/-- Success conditions for a `Product` operand list. -/
def OpsOKP : OperandList → Prop
  | OperandList.nil => True
  | OperandList.cons op rest => OpOKP op ∧ OpsOKP rest

theorem opsSemS_append : ∀ (l1 l2 : OperandList),
    opsSemS (OperandList.append l1 l2) = opsSemS l1 + opsSemS l2
  | OperandList.nil, l2 => by
    show opsSemS l2 = 0 + opsSemS l2
    exact (zero_add _).symm
  | OperandList.cons op rest, l2 => by
    show opSemS op + opsSemS (OperandList.append rest l2)
        = opSemS op + opsSemS rest + opsSemS l2
    rw [opsSemS_append rest l2, add_assoc]

theorem opSemS_negO (op : Operand) : opSemS (Operand.negO op) = - opSemS op := by
  cases op with
  | mk ty e =>
    cases ty <;>
    · rw [Operand.negO]
      rcases hfd : RationalExpression.from_dim e with msg | o
      · simp [opSemS, hfd]
      · rcases o with _ | r <;> simp [opSemS, hfd, Sign.rev]

theorem opsSemS_negAll : ∀ (l : OperandList),
    opsSemS (OperandList.negAll l) = - opsSemS l
  | OperandList.nil => by
    show (0 : KF) = - 0
    rw [neg_zero]
  | OperandList.cons op rest => by
    show opSemS (Operand.negO op) + opsSemS (OperandList.negAll rest)
        = - (opSemS op + opsSemS rest)
    rw [opsSemS_negAll rest, opSemS_negO, neg_add]

theorem opsSemP_append : ∀ (l1 l2 : OperandList),
    opsSemP (OperandList.append l1 l2) = opsSemP l1 * opsSemP l2
  | OperandList.nil, l2 => by
    show opsSemP l2 = 1 * opsSemP l2
    exact (one_mul _).symm
  | OperandList.cons op rest, l2 => by
    show opSemP op * opsSemP (OperandList.append rest l2)
        = opSemP op * opsSemP rest * opsSemP l2
    rw [opsSemP_append rest l2, mul_assoc]

theorem OpsOKS_append : ∀ {l1 l2 : OperandList},
    OpsOKS (OperandList.append l1 l2) ↔ OpsOKS l1 ∧ OpsOKS l2
  | OperandList.nil, l2 => by
    show OpsOKS l2 ↔ True ∧ OpsOKS l2
    exact ⟨fun h => ⟨trivial, h⟩, fun h => h.2⟩
  | OperandList.cons op rest, l2 => by
    show OpOKS op ∧ OpsOKS (OperandList.append rest l2)
        ↔ (OpOKS op ∧ OpsOKS rest) ∧ OpsOKS l2
    rw [@OpsOKS_append rest l2, and_assoc]

theorem OpOKS_negO {op : Operand} : OpOKS (Operand.negO op) ↔ OpOKS op := by
  cases op with
  | mk ty e => cases ty <;> exact Iff.rfl

theorem OpsOKS_negAll : ∀ {l : OperandList}, OpsOKS (OperandList.negAll l) ↔ OpsOKS l
  | OperandList.nil => Iff.rfl
  | OperandList.cons op rest => by
    show OpOKS (Operand.negO op) ∧ OpsOKS (OperandList.negAll rest)
        ↔ OpOKS op ∧ OpsOKS rest
    rw [@OpsOKS_negAll rest, OpOKS_negO]

theorem OpsOKP_append : ∀ {l1 l2 : OperandList},
    OpsOKP (OperandList.append l1 l2) ↔ OpsOKP l1 ∧ OpsOKP l2
  | OperandList.nil, l2 => by
    show OpsOKP l2 ↔ True ∧ OpsOKP l2
    exact ⟨fun h => ⟨trivial, h⟩, fun h => h.2⟩
  | OperandList.cons op rest, l2 => by
    show OpOKP op ∧ OpsOKP (OperandList.append rest l2)
        ↔ (OpOKP op ∧ OpsOKP rest) ∧ OpsOKP l2
    rw [@OpsOKP_append rest l2, and_assoc]

/-! ## Canonicality of the term lists produced by the term algebra -/

theorem multiply_terms_defn (x y : List CanonicalTerm) :
    CanonicalTerm.multiply_terms x y
      = CanonicalTerm.combine_like_terms
          (x.flatMap fun t1 => y.map fun t2 => t1.multiply t2) := rfl

theorem multiply_terms_input_FacCanon (x y : List CanonicalTerm) :
    ∀ t ∈ (x.flatMap fun t1 => y.map fun t2 => t1.multiply t2), FacCanon t.factors := by
  intro t ht
  obtain ⟨t1, _, ht2⟩ := List.mem_flatMap.1 ht
  obtain ⟨t2, _, rfl⟩ := List.mem_map.1 ht2
  exact multiply_FacCanon t1 t2

theorem multiply_terms_FacCanon (x y : List CanonicalTerm) :
    ∀ t ∈ CanonicalTerm.multiply_terms x y, FacCanon t.factors := by
  rw [multiply_terms_defn]
  exact (combine_CanonL _ (multiply_terms_input_FacCanon x y)).2

theorem multiply_terms_CanonL (x y : List CanonicalTerm) :
    CanonL (CanonicalTerm.multiply_terms x y) := by
  rw [multiply_terms_defn]
  exact (combine_CanonL _ (multiply_terms_input_FacCanon x y)).1

/-- A nonempty `multiply_terms` certifies both factors denote nonzero
polynomials. -/
theorem multiply_terms_nonempty_sem (x y : List CanonicalTerm)
    (h : CanonicalTerm.multiply_terms x y ≠ []) : semL x * semL y ≠ 0 := by
  have h2 := semL_ne_zero _ (multiply_terms_CanonL x y) h
  rw [multiply_terms_sem] at h2
  exact h2

theorem sum_terms_defn (x y : List CanonicalTerm) :
    CanonicalTerm.sum_terms x y = CanonicalTerm.combine_like_terms (x ++ y) := rfl

theorem sum_terms_FacCanon (x y : List CanonicalTerm)
    (hx : ∀ t ∈ x, FacCanon t.factors) (hy : ∀ t ∈ y, FacCanon t.factors) :
    (∀ t ∈ CanonicalTerm.sum_terms x y, FacCanon t.factors) ∧
    CanonL (CanonicalTerm.sum_terms x y) := by
  rw [sum_terms_defn]
  have hin : ∀ t ∈ x ++ y, FacCanon t.factors := by
    intro t ht
    rcases List.mem_append.1 ht with ht | ht
    · exact hx t ht
    · exact hy t ht
  exact ⟨(combine_CanonL _ hin).2, (combine_CanonL _ hin).1⟩

theorem terms_divide_defn (x : List CanonicalTerm) (d : CanonicalTerm) :
    CanonicalTerm.terms_divide_by_term x d
      = CanonicalTerm.combine_like_terms (x.map fun t => t.divide d) := rfl

theorem terms_divide_FacCanon (x : List CanonicalTerm) (d : CanonicalTerm) :
    ∀ t ∈ CanonicalTerm.terms_divide_by_term x d, FacCanon t.factors := by
  rw [terms_divide_defn]
  refine (combine_CanonL _ ?_).2
  intro t ht
  obtain ⟨u, _, rfl⟩ := List.mem_map.1 ht
  exact divide_FacCanon u d

/-! ## Well-formed accumulators of the lowering folds -/

/-- Accumulator invariant of `sumFold`/`prodFold`: canonical factor
lists everywhere and a denominator denoting a nonzero polynomial. -/
def GoodAcc (r : RationalExpression) : Prop :=
  (∀ t ∈ r.numer, FacCanon t.factors) ∧ (∀ t ∈ r.denom, FacCanon t.factors) ∧
  semL r.denom ≠ 0

theorem FacCanon_nil : FacCanon [] := ⟨List.Pairwise.nil, by simp⟩

theorem semT_new (c : Int) :
    semT (CanonicalTerm.new c) = AddMonoidAlgebra.single 0 (c : Rat) := by
  rw [semT]
  show AddMonoidAlgebra.single (toMon []) (c : Rat) = _
  rw [toMon_nil]

theorem GoodAcc_new_zero : GoodAcc RationalExpression.new_zero := by
  refine ⟨?_, ?_, ?_⟩
  · intro t ht
    rw [List.mem_singleton.1 ht]
    exact FacCanon_nil
  · intro t ht
    rw [List.mem_singleton.1 ht]
    exact FacCanon_nil
  · show semL [CanonicalTerm.new 1] ≠ 0
    rw [semL_singleton, semT_new]
    intro hc
    have : ((1 : Int) : Rat) = 0 := Finsupp.single_eq_zero.mp hc
    norm_num at this

theorem GoodAcc_new_one : GoodAcc RationalExpression.new_one := by
  refine ⟨?_, ?_, ?_⟩
  · intro t ht
    rw [List.mem_singleton.1 ht]
    exact FacCanon_nil
  · intro t ht
    rw [List.mem_singleton.1 ht]
    exact FacCanon_nil
  · show semL [CanonicalTerm.new 1] ≠ 0
    rw [semL_singleton, semT_new]
    intro hc
    have : ((1 : Int) : Rat) = 0 := Finsupp.single_eq_zero.mp hc
    norm_num at this

theorem ratSemK_new_zero : ratSemK RationalExpression.new_zero = 0 := by
  rw [ratSemK]
  show mapK (semL [CanonicalTerm.new 0]) / _ = 0
  rw [semL_singleton, semT_new]
  have : ((0 : Int) : Rat) = 0 := by norm_num
  rw [this]
  have h0 : (AddMonoidAlgebra.single (0 : Nat →₀ Int) (0 : Rat) : PolyA) = 0 :=
    Finsupp.single_zero _
  rw [h0, show mapK 0 = 0 from map_zero _, zero_div]

theorem ratSemK_new_one : ratSemK RationalExpression.new_one = 1 := by
  rw [ratSemK]
  show mapK (semL [CanonicalTerm.new 1]) / mapK (semL [CanonicalTerm.new 1]) = 1
  refine div_self ?_
  refine mapK_ne_zero ?_
  exact GoodAcc_new_one.2.2


/-! ## Semantic invariant of the Sum lowering fold -/

theorem frac_step (A B N D : KF) (hB : B ≠ 0) (hD : D ≠ 0) :
    (A * D + N * B) / (B * D) = A / B + N / D := by
  rw [div_add_div _ _ hB hD, mul_comm B N]

/-- One successful step of `sumFold` from a well-formed accumulator:
the new accumulator is well formed and denotes the sum of the fractions. -/
theorem sumFold_step (acc : RationalExpression) (ty : Sign) (e : Expr)
    (rest : OperandList) (r0 : RationalExpression)
    (hacc : GoodAcc acc)
    (hfd : RationalExpression.from_dim e = Except.ok (some r0))
    (hr0d : semL r0.denom ≠ 0) :
    ∃ next,
      RationalExpression.sumFold acc
          (OperandList.cons (Operand.mk ty e) rest)
        = RationalExpression.sumFold next rest
      ∧ GoodAcc next ∧ CanonL next.numer
      ∧ ratSemK next = ratSemK acc + ratSemK (applySign ty r0) := by
  have hADne : semL (applySign ty r0).denom ≠ 0 := by
    rw [applySign_denom]
    exact hr0d
  have hmul : semL (CanonicalTerm.multiply_terms acc.denom (applySign ty r0).denom) ≠ 0 := by
    rw [multiply_terms_sem]
    exact mul_ne_zero hacc.2.2 hADne
  have hne : CanonicalTerm.multiply_terms acc.denom (applySign ty r0).denom ≠ [] := by
    intro hc
    rw [hc, semL_nil] at hmul
    exact hmul rfl
  have hnew := (new_ok_iff
      (CanonicalTerm.sum_terms
        (CanonicalTerm.multiply_terms acc.numer (applySign ty r0).denom)
        (CanonicalTerm.multiply_terms (applySign ty r0).numer acc.denom))
      (CanonicalTerm.multiply_terms acc.denom (applySign ty r0).denom)
      _).2 ⟨hne, rfl⟩
  refine ⟨RationalExpression.mk
      (CanonicalTerm.sum_terms
        (CanonicalTerm.multiply_terms acc.numer (applySign ty r0).denom)
        (CanonicalTerm.multiply_terms (applySign ty r0).numer acc.denom))
      (CanonicalTerm.multiply_terms acc.denom (applySign ty r0).denom),
    ?_, ?_, ?_, ?_⟩
  · simp only [RationalExpression.sumFold, hfd]
    rw [hnew]
  · refine ⟨?_, ?_, ?_⟩
    · exact (sum_terms_FacCanon _ _
        (multiply_terms_FacCanon acc.numer (applySign ty r0).denom)
        (multiply_terms_FacCanon (applySign ty r0).numer acc.denom)).1
    · exact multiply_terms_FacCanon acc.denom (applySign ty r0).denom
    · exact hmul
  · exact (sum_terms_FacCanon _ _
      (multiply_terms_FacCanon acc.numer (applySign ty r0).denom)
      (multiply_terms_FacCanon (applySign ty r0).numer acc.denom)).2
  · show mapK (semL (CanonicalTerm.sum_terms
        (CanonicalTerm.multiply_terms acc.numer (applySign ty r0).denom)
        (CanonicalTerm.multiply_terms (applySign ty r0).numer acc.denom)))
      / mapK (semL (CanonicalTerm.multiply_terms acc.denom (applySign ty r0).denom))
      = _
    rw [sum_terms_sem, multiply_terms_sem, multiply_terms_sem, multiply_terms_sem,
      mapK_add, mapK_mul, mapK_mul, mapK_mul]
    exact frac_step _ _ _ _ (mapK_ne_zero hacc.2.2) (mapK_ne_zero hADne)

/-- Relating one operand of a `Sum` to its fraction. -/
theorem opSemS_of_ok (ty : Sign) (e : Expr) (r0 : RationalExpression)
    (hfd : RationalExpression.from_dim e = Except.ok (some r0)) :
    opSemS (Operand.mk ty e) = ratSemK (applySign ty r0) := by
  cases ty
  · simp only [opSemS, hfd]
    rw [applySign_positive]
  · simp only [opSemS, hfd]
    rw [applySign_negative, ratSemK_negR]

/-- Master lemma for `sumFold`: from a well-formed accumulator and
well-behaved operands the fold succeeds, stays well formed, and adds up
the operand fractions. -/
theorem sumFold_sem : ∀ (L : OperandList) (acc : RationalExpression),
    GoodAcc acc → OpsOKS L →
    ∃ res, RationalExpression.sumFold acc L = Except.ok (some res) ∧ GoodAcc res ∧
      ratSemK res = ratSemK acc + opsSemS L ∧ (CanonL res.numer ∨ res = acc)
  | OperandList.nil, acc => by
    intro hacc _
    refine ⟨acc, ?_, hacc, ?_, Or.inr rfl⟩
    · rw [RationalExpression.sumFold]
    · show ratSemK acc = ratSemK acc + 0
      rw [add_zero]
  | OperandList.cons (Operand.mk ty e) rest, acc => by
    intro hacc hok
    obtain ⟨⟨r0, hfd, hr0d⟩, hrest⟩ := hok
    obtain ⟨next, hstep, hgood, hcanon, hsem⟩ :=
      sumFold_step acc ty e rest r0 hacc hfd hr0d
    obtain ⟨res, hfold, hgood2, hsem2, hdisj⟩ := sumFold_sem rest next hgood hrest
    refine ⟨res, ?_, hgood2, ?_, ?_⟩
    · rw [hstep]
      exact hfold
    · rw [hsem2, hsem]
      show ratSemK acc + ratSemK (applySign ty r0) + opsSemS rest
          = ratSemK acc + (opSemS (Operand.mk ty e) + opsSemS rest)
      rw [opSemS_of_ok ty e r0 hfd, add_assoc]
    · rcases hdisj with hc | rfl
      · exact Or.inl hc
      · exact Or.inl hcanon

/-- Extraction: a successful `sumFold` certifies that every operand
lowers successfully with a semantically nonzero denominator. -/
theorem sumFold_ok : ∀ (L : OperandList) (acc res : RationalExpression),
    RationalExpression.sumFold acc L = Except.ok (some res) → GoodAcc acc → OpsOKS L
  | OperandList.nil, _, _ => by
    intro _ _
    trivial
  | OperandList.cons (Operand.mk ty e) rest, acc, res => by
    intro h hacc
    rw [RationalExpression.sumFold] at h
    split at h
    · cases h
    · cases h
    · next r0 hfd =>
      split at h
      · cases h
      · next next2 hnew =>
        rcases (new_ok_iff _ _ _).1 hnew with ⟨hne, rfl⟩
        have hr0d : semL r0.denom ≠ 0 := by
          have hsem := multiply_terms_nonempty_sem _ _ hne
          rw [applySign_denom] at hsem
          exact fun hc => hsem (by rw [hc, mul_zero])
        have hgood : GoodAcc (RationalExpression.mk
            (CanonicalTerm.sum_terms
              (CanonicalTerm.multiply_terms acc.numer (applySign ty r0).denom)
              (CanonicalTerm.multiply_terms (applySign ty r0).numer acc.denom))
            (CanonicalTerm.multiply_terms acc.denom (applySign ty r0).denom)) := by
          refine ⟨?_, ?_, ?_⟩
          · exact (sum_terms_FacCanon _ _
              (multiply_terms_FacCanon acc.numer (applySign ty r0).denom)
              (multiply_terms_FacCanon (applySign ty r0).numer acc.denom)).1
          · exact multiply_terms_FacCanon acc.denom (applySign ty r0).denom
          · show semL (CanonicalTerm.multiply_terms acc.denom (applySign ty r0).denom) ≠ 0
            rw [multiply_terms_sem, applySign_denom]
            exact mul_ne_zero hacc.2.2 hr0d
        exact ⟨⟨r0, hfd, hr0d⟩, sumFold_ok rest _ res h hgood⟩


/-! ## Semantic invariant of the Product lowering fold -/

theorem opSemP_of_ok (ty : Sign) (e : Expr) (r0 : RationalExpression)
    (hfd : RationalExpression.from_dim e = Except.ok (some r0)) :
    opSemP (Operand.mk ty e) = ratSemK (applySignInv ty r0) := by
  simp only [opSemP, hfd]

/-- One successful step of `prodFold` from a well-formed accumulator. -/
theorem prodFold_step (acc : RationalExpression) (ty : Sign) (e : Expr)
    (rest : OperandList) (r0 : RationalExpression)
    (hacc : GoodAcc acc)
    (hfd : RationalExpression.from_dim e = Except.ok (some r0))
    (hgt : (applySignInv ty r0).denom.length > 1 → semL (applySignInv ty r0).denom ≠ 0)
    (hle : ¬ (applySignInv ty r0).denom.length > 1 → (applySignInv ty r0).denom ≠ []) :
    ∃ next,
      RationalExpression.prodFold acc
          (OperandList.cons (Operand.mk ty e) rest)
        = RationalExpression.prodFold next rest
      ∧ GoodAcc next
      ∧ ratSemK next = ratSemK acc * ratSemK (applySignInv ty r0) := by
  by_cases hlen : (applySignInv ty r0).denom.length > 1
  · have hDne : semL (applySignInv ty r0).denom ≠ 0 := hgt hlen
    have hmul : semL (CanonicalTerm.multiply_terms acc.denom
        (applySignInv ty r0).denom) ≠ 0 := by
      rw [multiply_terms_sem]
      exact mul_ne_zero hacc.2.2 hDne
    have hne : CanonicalTerm.multiply_terms acc.denom (applySignInv ty r0).denom ≠ [] := by
      intro hc
      rw [hc, semL_nil] at hmul
      exact hmul rfl
    have hnew := (new_ok_iff
        (CanonicalTerm.multiply_terms acc.numer (applySignInv ty r0).numer)
        (CanonicalTerm.multiply_terms acc.denom (applySignInv ty r0).denom)
        _).2 ⟨hne, rfl⟩
    refine ⟨RationalExpression.mk
        (CanonicalTerm.multiply_terms acc.numer (applySignInv ty r0).numer)
        (CanonicalTerm.multiply_terms acc.denom (applySignInv ty r0).denom),
      ?_, ?_, ?_⟩
    · simp only [RationalExpression.prodFold, hfd]
      rw [if_pos hlen, hnew]
    · exact ⟨multiply_terms_FacCanon acc.numer (applySignInv ty r0).numer,
        multiply_terms_FacCanon acc.denom (applySignInv ty r0).denom, hmul⟩
    · show mapK (semL (CanonicalTerm.multiply_terms acc.numer (applySignInv ty r0).numer))
          / mapK (semL (CanonicalTerm.multiply_terms acc.denom (applySignInv ty r0).denom))
          = _
      rw [multiply_terms_sem, multiply_terms_sem, mapK_mul, mapK_mul,
        ratSemK, ratSemK, div_mul_div_comm]
  · have hDnil : (applySignInv ty r0).denom ≠ [] := hle hlen
    rcases hD : (applySignInv ty r0).denom with _ | ⟨d, ds⟩
    · exact absurd hD hDnil
    · have hds : ds = [] := by
        rw [hD] at hlen
        have h1 : ds.length + 1 ≤ 1 := by
          simpa [Nat.lt_iff_add_one_le] using hlen
        have h2 : ds.length = 0 := by omega
        exact List.eq_nil_of_length_eq_zero h2
      subst hds
      refine ⟨RationalExpression.mk
          (CanonicalTerm.terms_divide_by_term
            (CanonicalTerm.multiply_terms acc.numer (applySignInv ty r0).numer) d)
          acc.denom,
        ?_, ?_, ?_⟩
      · simp only [RationalExpression.prodFold, hfd]
        rw [if_neg hlen, hD]
      · exact ⟨terms_divide_FacCanon _ d, hacc.2.1, hacc.2.2⟩
      · by_cases hd : d.coef = 0
        · have hnil : CanonicalTerm.terms_divide_by_term
              (CanonicalTerm.multiply_terms acc.numer (applySignInv ty r0).numer) d = [] :=
            terms_divide_zero _ d hd
          show mapK (semL (CanonicalTerm.terms_divide_by_term
              (CanonicalTerm.multiply_terms acc.numer (applySignInv ty r0).numer) d))
              / mapK (semL acc.denom) = _
          rw [hnil, semL_nil, show mapK 0 = 0 from map_zero _, zero_div,
            ratSemK, ratSemK, hD, semL_singleton, semT_coef_zero hd,
            show mapK 0 = 0 from map_zero _, div_zero, mul_zero]
        · have hstep : mapK (semL (CanonicalTerm.terms_divide_by_term
              (CanonicalTerm.multiply_terms acc.numer (applySignInv ty r0).numer) d))
              = mapK (semL acc.numer) * mapK (semL (applySignInv ty r0).numer)
                / mapK (semT d) := by
            rw [eq_div_iff (mapK_ne_zero (semT_ne_zero hd)), ← mapK_mul, ← mapK_mul]
            rw [terms_divide_sem _ d hd, multiply_terms_sem]
          show mapK (semL (CanonicalTerm.terms_divide_by_term
              (CanonicalTerm.multiply_terms acc.numer (applySignInv ty r0).numer) d))
              / mapK (semL acc.denom) = _
          rw [hstep, ratSemK, ratSemK, hD, semL_singleton, div_mul_div_comm,
            div_div, mul_comm (mapK (semT d)) (mapK (semL acc.denom))]

/-- Master lemma for `prodFold`: from a well-formed accumulator and
well-behaved operands the fold succeeds, stays well formed, and
multiplies up the operand fractions. -/
theorem prodFold_sem : ∀ (L : OperandList) (acc : RationalExpression),
    GoodAcc acc → OpsOKP L →
    ∃ res, RationalExpression.prodFold acc L = Except.ok (some res) ∧ GoodAcc res ∧
      ratSemK res = ratSemK acc * opsSemP L
  | OperandList.nil, acc => by
    intro hacc _
    refine ⟨acc, ?_, hacc, ?_⟩
    · rw [RationalExpression.prodFold]
    · show ratSemK acc = ratSemK acc * 1
      rw [mul_one]
  | OperandList.cons (Operand.mk ty e) rest, acc => by
    intro hacc hok
    obtain ⟨⟨r0, hfd, hgt, hle⟩, hrest⟩ := hok
    obtain ⟨next, hstep, hgood, hsem⟩ := prodFold_step acc ty e rest r0 hacc hfd hgt hle
    obtain ⟨res, hfold, hgood2, hsem2⟩ := prodFold_sem rest next hgood hrest
    refine ⟨res, ?_, hgood2, ?_⟩
    · rw [hstep]
      exact hfold
    · rw [hsem2, hsem]
      show ratSemK acc * ratSemK (applySignInv ty r0) * opsSemP rest
          = ratSemK acc * (opSemP (Operand.mk ty e) * opsSemP rest)
      rw [opSemP_of_ok ty e r0 hfd, mul_assoc]

/-- Extraction: a successful `prodFold` certifies that every operand is
well behaved. -/
theorem prodFold_ok : ∀ (L : OperandList) (acc res : RationalExpression),
    RationalExpression.prodFold acc L = Except.ok (some res) → GoodAcc acc → OpsOKP L
  | OperandList.nil, _, _ => by
    intro _ _
    trivial
  | OperandList.cons (Operand.mk ty e) rest, acc, res => by
    intro h hacc
    rw [RationalExpression.prodFold] at h
    split at h
    · cases h
    · cases h
    · next r0 hfd =>
      split at h
      · next hlen =>
        split at h
        · cases h
        · next next2 hnew =>
          rcases (new_ok_iff _ _ _).1 hnew with ⟨hne, rfl⟩
          have hDne : semL (applySignInv ty r0).denom ≠ 0 := by
            have hsem := multiply_terms_nonempty_sem _ _ hne
            exact fun hc => hsem (by rw [hc, mul_zero])
          have hgood : GoodAcc (RationalExpression.mk
              (CanonicalTerm.multiply_terms acc.numer (applySignInv ty r0).numer)
              (CanonicalTerm.multiply_terms acc.denom (applySignInv ty r0).denom)) := by
            refine ⟨multiply_terms_FacCanon _ _, multiply_terms_FacCanon _ _, ?_⟩
            show semL (CanonicalTerm.multiply_terms acc.denom
              (applySignInv ty r0).denom) ≠ 0
            rw [multiply_terms_sem]
            exact mul_ne_zero hacc.2.2 hDne
          exact ⟨⟨r0, hfd, fun _ => hDne, fun hc => absurd hlen hc⟩,
            prodFold_ok rest _ res h hgood⟩
      · next hlen =>
        split at h
        · cases h
        · next d ds hD =>
          have hgood : GoodAcc (RationalExpression.mk
              (CanonicalTerm.terms_divide_by_term
                (CanonicalTerm.multiply_terms acc.numer (applySignInv ty r0).numer) d)
              acc.denom) :=
            ⟨terms_divide_FacCanon _ d, hacc.2.1, hacc.2.2⟩
          refine ⟨⟨r0, hfd, fun hc => absurd hc hlen, fun _ => ?_⟩,
            prodFold_ok rest _ res h hgood⟩
          rw [hD]
          exact List.cons_ne_nil d ds


/-! ## Operator normal forms and the commutativity of `equivalent` -/

/-- The operand list contributed by an expression to a `Sum` built by
the `+`/`-` operators (a `Sum` is flattened, anything else is wrapped
as one positive operand). -/
def opsOfS : Expr → OperandList
  | Expr.sum ops => ops
  | e => OperandList.cons (Operand.mk Sign.positive e) OperandList.nil

/-- The operand list contributed by an expression to a `Product`. -/
def opsOfP : Expr → OperandList
  | Expr.product ops => ops
  | e => OperandList.cons (Operand.mk Sign.positive e) OperandList.nil

theorem add_eq (a b : Expr) :
    Expr.add a b = Expr.sum (OperandList.append (opsOfS a) (opsOfS b)) := by
  cases a <;> cases b <;> rfl

theorem sub_eq_ops (a b : Expr) :
    Expr.sub a b
      = Expr.sum (OperandList.append (opsOfS a) (OperandList.negAll (opsOfS b))) := by
  cases a <;> cases b <;> rfl

theorem mul_eq (a b : Expr) :
    Expr.mul a b = Expr.product (OperandList.append (opsOfP a) (opsOfP b)) := by
  cases a <;> cases b <;> rfl

/-- With all coefficients of the list zero, neither classification flag
is set. -/
theorem classifyFlags_allzero (l : List CanonicalTerm)
    (h : ∀ t ∈ l, t.coef = 0) : classifyFlags l = (false, false) := by
  rw [classifyFlags_eq]
  refine Prod.ext ?_ ?_ <;>
  · show List.any l _ = false
    rw [List.any_eq_false]
    intro t ht
    simp [h t ht]

/-- `equivalent` answers `Some(true)` whenever the lowered difference has
an all-zero numerator. -/
theorem equivalent_of_allzero (a b : Expr) (res : RationalExpression)
    (hlow : lowerOf (Expr.sub a b) = Except.ok (some res))
    (hz : ∀ t ∈ res.numer, t.coef = 0) :
    Expr.equivalent a b = Except.ok (some true) := by
  simp only [Expr.equivalent, hlow]
  rw [classifyFlags_allzero _ hz]
  simp

/-- Commutativity of `+` under `equivalent`, for inputs whose sum lowers
successfully. -/
theorem c8_sum (a b : Expr) (ra : RationalExpression)
    (hA : RationalExpression.from_dim (Expr.add a b) = Except.ok (some ra)) :
    Expr.equivalent (Expr.add a b) (Expr.add b a) = Except.ok (some true) := by
  rw [add_eq] at hA
  have hfoldA : RationalExpression.sumFold RationalExpression.new_zero
      (OperandList.append (opsOfS a) (opsOfS b)) = Except.ok (some ra) := hA
  have hOK12 := sumFold_ok _ _ _ hfoldA GoodAcc_new_zero
  obtain ⟨hOK1, hOK2⟩ := OpsOKS_append.1 hOK12
  have hOKdiff : OpsOKS (OperandList.append
      (OperandList.append (opsOfS a) (opsOfS b))
      (OperandList.negAll (OperandList.append (opsOfS b) (opsOfS a)))) :=
    OpsOKS_append.2 ⟨hOK12, OpsOKS_negAll.2 (OpsOKS_append.2 ⟨hOK2, hOK1⟩)⟩
  obtain ⟨res, hfold, hgood, hsem, hdisj⟩ :=
    sumFold_sem _ _ GoodAcc_new_zero hOKdiff
  have hzero : ratSemK res = 0 := by
    rw [hsem, ratSemK_new_zero, zero_add, opsSemS_append, opsSemS_negAll,
      opsSemS_append, opsSemS_append]
    ring
  have hnumz : semL res.numer = 0 := by
    rw [ratSemK] at hzero
    rcases div_eq_zero_iff.mp hzero with h | h
    · exact mapK_eq_zero h
    · exact absurd h (mapK_ne_zero hgood.2.2)
  have hz : ∀ t ∈ res.numer, t.coef = 0 := by
    rcases hdisj with hcanon | rfl
    · have hnil : res.numer = [] := by
        by_contra hne
        exact semL_ne_zero _ hcanon hne hnumz
      rw [hnil]
      intro t ht
      cases ht
    · intro t ht
      rw [List.mem_singleton.1 ht]
      show ((0 : Int) : Rat) = 0
      norm_num
  refine equivalent_of_allzero _ _ res ?_ hz
  rw [sub_eq_ops, add_eq a b, add_eq b a]
  show RationalExpression.sumFold RationalExpression.new_zero _ = _
  exact hfold

/-- Commutativity of `*` under `equivalent`, for inputs whose product
lowers successfully. -/
theorem c8_prod (a b : Expr) (ra : RationalExpression)
    (hA : RationalExpression.from_dim (Expr.mul a b) = Except.ok (some ra)) :
    Expr.equivalent (Expr.mul a b) (Expr.mul b a) = Except.ok (some true) := by
  have hA2 := hA
  rw [mul_eq] at hA2
  have hfoldA : RationalExpression.prodFold RationalExpression.new_one
      (OperandList.append (opsOfP a) (opsOfP b)) = Except.ok (some ra) := hA2
  have hOK12 := prodFold_ok _ _ _ hfoldA GoodAcc_new_one
  obtain ⟨hOK1, hOK2⟩ := OpsOKP_append.1 hOK12
  obtain ⟨ra2, hfoldA2, hgoodA2, hsemA2⟩ := prodFold_sem _ _ GoodAcc_new_one hOK12
  have hra : ra2 = ra := by
    have h2 := hfoldA2.symm.trans hfoldA
    injection h2 with h3
    injection h3
  rw [hra] at hsemA2 hgoodA2
  have hOK21 := OpsOKP_append.2 ⟨hOK2, hOK1⟩
  obtain ⟨rb, hfoldB, hgoodB, hsemB⟩ := prodFold_sem _ _ GoodAcc_new_one hOK21
  have hB : RationalExpression.from_dim (Expr.mul b a) = Except.ok (some rb) := by
    rw [mul_eq b a]
    exact hfoldB
  have hsame : ratSemK ra = ratSemK rb := by
    rw [hsemA2, hsemB, ratSemK_new_one, one_mul, one_mul,
      opsSemP_append, opsSemP_append, mul_comm]
  have hOKdiff : OpsOKS (OperandList.cons (Operand.mk Sign.positive (Expr.mul a b))
      (OperandList.cons (Operand.mk Sign.negative (Expr.mul b a)) OperandList.nil)) :=
    ⟨⟨ra, hA, hgoodA2.2.2⟩, ⟨rb, hB, hgoodB.2.2⟩, trivial⟩
  obtain ⟨res, hfold, hgood, hsem, hdisj⟩ :=
    sumFold_sem _ _ GoodAcc_new_zero hOKdiff
  have hzero : ratSemK res = 0 := by
    rw [hsem, ratSemK_new_zero, zero_add]
    show opSemS (Operand.mk Sign.positive (Expr.mul a b))
        + (opSemS (Operand.mk Sign.negative (Expr.mul b a)) + 0) = 0
    have h1 : opSemS (Operand.mk Sign.positive (Expr.mul a b)) = ratSemK ra := by
      simp only [opSemS, hA]
    have h2 : opSemS (Operand.mk Sign.negative (Expr.mul b a)) = - ratSemK rb := by
      simp only [opSemS, hB]
    rw [h1, h2, add_zero, hsame, add_neg_cancel]
  have hnumz : semL res.numer = 0 := by
    rw [ratSemK] at hzero
    rcases div_eq_zero_iff.mp hzero with h | h
    · exact mapK_eq_zero h
    · exact absurd h (mapK_ne_zero hgood.2.2)
  have hz : ∀ t ∈ res.numer, t.coef = 0 := by
    rcases hdisj with hcanon | rfl
    · have hnil : res.numer = [] := by
        by_contra hne
        exact semL_ne_zero _ hcanon hne hnumz
      rw [hnil]
      intro t ht
      cases ht
    · intro t ht
      rw [List.mem_singleton.1 ht]
      show ((0 : Int) : Rat) = 0
      norm_num
  refine equivalent_of_allzero _ _ res ?_ hz
  have hdiff : Expr.sub (Expr.mul a b) (Expr.mul b a)
      = Expr.sum (OperandList.cons (Operand.mk Sign.positive (Expr.mul a b))
          (OperandList.cons (Operand.mk Sign.negative (Expr.mul b a)) OperandList.nil)) := by
    rw [mul_eq a b, mul_eq b a]
    rfl
  rw [hdiff]
  show RationalExpression.sumFold RationalExpression.new_zero _ = _
  exact hfold


/-- Claim C8 (amended).  Commutativity of `+` and `*` under the
equivalence decision procedure, for pairs whose sum (resp. product)
lowers successfully to rational canonical form: whenever
`from_dim(a + b)` returns a rational expression, `equivalent(a+b, b+a)`
returns `Some(true)`, and whenever `from_dim(a * b)` returns a rational
expression, `equivalent(a*b, b*a)` returns `Some(true)`.  (Without the
lowering hypothesis the claim fails: `equivalent` aborts on operands
such as `x/(y−y)`, see the counterexample.) -/
theorem C8_commutativity (a b : Expr) :
    (∀ ra, RationalExpression.from_dim (Expr.add a b) = Except.ok (some ra) →
      Expr.equivalent (Expr.add a b) (Expr.add b a) = Except.ok (some true)) ∧
    (∀ ra, RationalExpression.from_dim (Expr.mul a b) = Except.ok (some ra) →
      Expr.equivalent (Expr.mul a b) (Expr.mul b a) = Except.ok (some true)) :=
  ⟨fun ra h => c8_sum a b ra h, fun ra h => c8_prod a b ra h⟩

/-- Counterexample to claim C8 as stated: with `a = x/(y−y)` and `b = 1`
the equivalence check of `a + b` against `b + a` aborts (the lowering of
`a` inverts a rational expression with empty numerator and then indexes
into the resulting empty denominator) instead of returning `Some(true)`. -/
theorem C8_counterexample :
    Expr.equivalent
        (Expr.add (Expr.div (Expr.var 0) (Expr.sub (Expr.var 1) (Expr.var 1)))
          (Expr.constant 1))
        (Expr.add (Expr.constant 1)
          (Expr.div (Expr.var 0) (Expr.sub (Expr.var 1) (Expr.var 1))))
      = Except.error "index out of bounds" := by
  norm_num [Expr.equivalent, lowerOf, Expr.add, Expr.sub, Expr.div,
    RationalExpression.from_dim,
    RationalExpression.sumFold, RationalExpression.prodFold, RationalExpression.new,
    RationalExpression.new_zero, RationalExpression.new_one, RationalExpression.negR,
    RationalExpression.invert, applySign, applySignInv,
    CanonicalTerm.sum_terms, CanonicalTerm.multiply_terms, CanonicalTerm.terms_divide_by_term,
    CanonicalTerm.multiply, CanonicalTerm.divide, CanonicalTerm.new, CanonicalTerm.with_var,
    CanonicalTerm.is_constant, CanonicalTerm.negT, CanonicalTerm.combine_like_terms,
    combineGroups, groupable, stripZero, termCmp, sortFac, facListCmp, Factor.fcmp,
    mergeFactors, mergeLoop, sortByBase, List.insertionSort, List.orderedInsert,
    Expr.positive, Expr.negative, OperandList.append, OperandList.negAll,
    Operand.negO, Sign.rev, cmp, cmpUsing, classifyFlags, classifyLoop]

/-- Lowering of the product `x * y` of two distinct variables. -/
theorem lower_mul_var01 :
    RationalExpression.from_dim (Expr.mul (Expr.var 0) (Expr.var 1))
      = Except.ok (some
          { numer :=
              [{ coef := 1, factors := [{ base := 0, exponent := 1 }, { base := 1, exponent := 1 }] }],
            denom := [{ coef := 1, factors := [] }] }) := by
  norm_num [Expr.mul, RationalExpression.from_dim, RationalExpression.prodFold,
    RationalExpression.new_one, RationalExpression.invert, applySignInv,
    CanonicalTerm.multiply_terms, CanonicalTerm.terms_divide_by_term,
    CanonicalTerm.multiply, CanonicalTerm.divide, CanonicalTerm.new, CanonicalTerm.with_var,
    CanonicalTerm.is_constant, CanonicalTerm.combine_like_terms,
    combineGroups, groupable, stripZero, termCmp, sortFac, facListCmp, Factor.fcmp,
    mergeFactors, mergeLoop, sortByBase, List.insertionSort, List.orderedInsert,
    Expr.positive, cmp, cmpUsing, Ordering.then]

/-- Witness for the amended claim C8 at `a = x`, `b = y`: both lowering
hypotheses hold and both equivalence checks answer `Some(true)`. -/
theorem C8_witness :
    RationalExpression.from_dim (Expr.add (Expr.var 0) (Expr.var 1))
        = Except.ok (some
            { numer := [{ coef := 1, factors := [{ base := 0, exponent := 1 }] },
                        { coef := 1, factors := [{ base := 1, exponent := 1 }] }],
              denom := [{ coef := 1, factors := [] }] }) ∧
    RationalExpression.from_dim (Expr.mul (Expr.var 0) (Expr.var 1))
        = Except.ok (some
            { numer :=
                [{ coef := 1, factors := [{ base := 0, exponent := 1 }, { base := 1, exponent := 1 }] }],
              denom := [{ coef := 1, factors := [] }] }) ∧
    Expr.equivalent (Expr.add (Expr.var 0) (Expr.var 1))
        (Expr.add (Expr.var 1) (Expr.var 0)) = Except.ok (some true) ∧
    Expr.equivalent (Expr.mul (Expr.var 0) (Expr.var 1))
        (Expr.mul (Expr.var 1) (Expr.var 0)) = Except.ok (some true) :=
  ⟨c3_lower_ab, lower_mul_var01,
    (C8_commutativity (Expr.var 0) (Expr.var 1)).1 _ c3_lower_ab,
    (C8_commutativity (Expr.var 0) (Expr.var 1)).2 _ lower_mul_var01⟩

end SE
